import Mathlib

/-!
# Verification of the fonti/fontpm font manager core

A shallow embedding, in Lean 4, of the core logic of the `Glypse/fonti`
repository: font categorization and selection (`fontpm/fonts.py`), the
installed-manifest bookkeeping (`fonti/installer.py`), the repair pass
(`fonti/library.py`), the uninstall driver (`fontpm/uninstaller.py`), the
update driver (`fonti/updater.py`) and manifest loading (`fonti/config.py`).

External collaborators (the fontTools `TTFont` parser, `hashlib.sha256`,
the `packaging` version parser, the filesystem) are modelled as explicit
oracle parameters; the repository's own control flow is translated
line-by-line.  Python dictionaries are modelled as insertion-ordered
association lists with unique keys.
-/

set_option maxHeartbeats 1000000

namespace Fonti

/-! ## Association lists with Python-dict semantics -/

/-- Lookup in an insertion-ordered association list (Python `d[k]` /
`d.get(k)`), returning the first binding of the key. -/
def alGet {α : Type} (l : List (String × α)) (k : String) : Option α :=
  match l with
  | [] => none
  | (k', v) :: rest => if k' = k then some v else alGet rest k

/-- Python `k in d`. -/
def alHas {α : Type} (l : List (String × α)) (k : String) : Bool :=
  (alGet l k).isSome

/-- Python `d[k] = v`: update the binding in place if the key is present,
otherwise append a new binding at the end (insertion order). -/
def alSet {α : Type} (l : List (String × α)) (k : String) (v : α) :
    List (String × α) :=
  match l with
  | [] => [(k, v)]
  | (k', v') :: rest => if k' = k then (k, v) :: rest else (k', v') :: alSet rest k v

/-- Python `del d[k]`. -/
def alErase {α : Type} (l : List (String × α)) (k : String) :
    List (String × α) :=
  match l with
  | [] => []
  | (k', v) :: rest => if k' = k then alErase rest k else (k', v) :: alErase rest k

/-- Keys of the dict, in iteration order. -/
def alKeys {α : Type} (l : List (String × α)) : List String :=
  l.map Prod.fst

theorem alGet_nil {α : Type} (k : String) : alGet ([] : List (String × α)) k = none := rfl

theorem alGet_cons {α : Type} (k' k : String) (v : α) (rest : List (String × α)) :
    alGet ((k', v) :: rest) k = if k' = k then some v else alGet rest k := rfl

theorem alGet_alSet {α : Type} (l : List (String × α)) (k k' : String) (v : α) :
    alGet (alSet l k v) k' = if k = k' then some v else alGet l k' := by
  induction l with
  | nil => simp [alSet, alGet]
  | cons p rest ih =>
    obtain ⟨a, b⟩ := p
    by_cases hak : a = k
    · subst hak
      by_cases hk' : a = k' <;> simp [alSet, alGet, hk']
    · by_cases hak' : a = k'
      · subst hak'
        have hka : ¬ k = a := fun h => hak h.symm
        simp [alSet, alGet, hak, hka]
      · simp [alSet, alGet, hak, hak', ih]

theorem alGet_alErase {α : Type} (l : List (String × α)) (k k' : String) :
    alGet (alErase l k) k' = if k = k' then none else alGet l k' := by
  induction l with
  | nil => simp [alErase, alGet]
  | cons p rest ih =>
    obtain ⟨a, b⟩ := p
    by_cases hak : a = k
    · subst hak
      by_cases hk' : a = k'
      · subst hk'
        simp [alErase, alGet, ih]
      · simp [alErase, alGet, hk', ih]
    · by_cases hak' : a = k'
      · subst hak'
        have hka : ¬ k = a := fun h => hak h.symm
        simp [alErase, alGet, hak, hka, ih]
      · simp [alErase, alGet, hak, hak', ih]

/-! ## String primitives

Python string operations used by the sources, implemented over the
character list so that concrete instances reduce in the kernel.
`lowerString` models `str.lower` on the ASCII range (file extensions and
repo keys here are ASCII). -/

/-- Python `str.lower` (ASCII). -/
def lowerString (s : String) : String := String.mk (s.data.map Char.toLower)

/-- Python `str.endswith`. -/
def strEndsWith (s p : String) : Bool := p.data.isSuffixOf s.data

/-- Python `str.startswith`. -/
def strStartsWith (s p : String) : Bool := p.data.isPrefixOf s.data

/-- Helper for `splitOnChar`. -/
def splitCharAux (c : Char) : List Char → List Char → List (List Char)
  | [], acc => [acc.reverse]
  | x :: xs, acc =>
    if x = c then acc.reverse :: splitCharAux c xs [] else splitCharAux c xs (x :: acc)

/-- Python `str.split(sep)` for a one-character separator. -/
def splitOnChar (c : Char) (s : String) : List String :=
  (splitCharAux c s.data []).map (fun l => String.mk l)

/-- Python `sep in str` for a one-character separator. -/
def containsChar (s : String) (c : Char) : Bool := s.data.contains c

/-- Python `str.lstrip(ch)`. -/
def lstripChar (c : Char) (s : String) : String :=
  String.mk (s.data.dropWhile (fun x => x == c))

/-- Python code-point-wise `<` on strings (helper for `strGt`). -/
def charListLt : List Char → List Char → Bool
  | [], [] => false
  | [], _ :: _ => true
  | _ :: _, [] => false
  | x :: xs, y :: ys =>
    if x.val < y.val then true else if y.val < x.val then false else charListLt xs ys

/-- Python `a > b` on strings (byte-wise / code-point comparison). -/
def strGt (a b : String) : Bool := charListLt b.data a.data

/-! ## `fontpm/fonts.py`: introspection, categorization, selection

A font file is known to this module only through its path string and its
`Path.suffix`.  The fontTools library is modelled by an `Introspector`
oracle: `fvar p` is the outcome of `is_variable_font(p)` (`none` models a
raised exception), `os2 p` is the outcome of reading the OS/2 table
(`usWeightClass`, italic bit of `fsSelection`), `none` again modelling a
raised exception. -/

structure FontFile where
  path : String
  suffix : String
deriving DecidableEq, Repr

structure Introspector where
  fvar : String → Option Bool
  os2 : String → Option (Int × Bool)

/-- `is_variable_font`: propagates the parse failure to the caller. -/
def is_variable_font (I : Introspector) (font_path : String) : Option Bool :=
  I.fvar font_path

/-- `get_font_weight`: weight class, defaulting to 400 on any failure. -/
def get_font_weight (I : Introspector) (font_path : String) : Int :=
  match I.os2 font_path with
  | some (w, _) => w
  | none => 400

/-- `get_font_italic`: italic bit, defaulting to `false` on any failure. -/
def get_font_italic (I : Introspector) (font_path : String) : Bool :=
  match I.os2 font_path with
  | some (_, i) => i
  | none => false

/-- The seven buckets returned by `categorize_fonts`, in the source's
tuple order. -/
structure Categorized where
  variable_ttfs : List FontFile
  static_ttfs : List FontFile
  otf_files : List FontFile
  variable_woffs : List FontFile
  static_woffs : List FontFile
  variable_woff2s : List FontFile
  static_woff2s : List FontFile
deriving DecidableEq, Repr

/-- The per-extension loop of `categorize_fonts`: route each file to the
variable or static sub-bucket by `is_variable_font`, a raised exception
(`none`) routing to the static sub-bucket. -/
def routeVariable (I : Introspector) : List FontFile → List FontFile × List FontFile
  | [] => ([], [])
  | f :: rest =>
    let r := routeVariable I rest
    match is_variable_font I f.path with
    | some true => (f :: r.1, r.2)
    | some false => (r.1, f :: r.2)
    | none => (r.1, f :: r.2)

/-- `categorize_fonts`: partition by lowercased extension, then split
`.ttf`/`.woff`/`.woff2` into variable/static; `.otf` is never checked. -/
def categorize_fonts (I : Introspector) (font_files : List FontFile) : Categorized :=
  let ttf_files := font_files.filter (fun f => lowerString f.suffix = ".ttf")
  let otf_files := font_files.filter (fun f => lowerString f.suffix = ".otf")
  let woff_files := font_files.filter (fun f => lowerString f.suffix = ".woff")
  let woff2_files := font_files.filter (fun f => lowerString f.suffix = ".woff2")
  let rt := routeVariable I ttf_files
  let rw := routeVariable I woff_files
  let rw2 := routeVariable I woff2_files
  { variable_ttfs := rt.1
    static_ttfs := rt.2
    otf_files := otf_files
    variable_woffs := rw.1
    static_woffs := rw.2
    variable_woff2s := rw2.1
    static_woff2s := rw2.2 }

/-- The warning printed by the variable-format branches of `select_fonts`. -/
def variableWarning : String :=
  "Warning: Weights and styles are ignored for variable fonts."

/-- The warning list produced by a selected variable-format branch. -/
def varWarn (weights : List Int) (styles : List String) : List String :=
  if weights ≠ [] ∨ styles ≠ ["roman", "italic"] then [variableWarning] else []

/-- The in-branch filtering of `select_fonts` for static buckets: filter by
weight whitelist when `weights` is non-empty, then by style whitelist when
`styles` differs from the full `["roman", "italic"]` list. -/
def filterCandidates (I : Introspector) (weights : List Int) (styles : List String)
    (candidates : List FontFile) : List FontFile :=
  let c1 := if weights ≠ [] then
    candidates.filter (fun f => weights.contains (get_font_weight I f.path))
  else candidates
  if styles ≠ ["roman", "italic"] then
    c1.filter (fun f =>
      (get_font_italic I f.path ∧ styles.contains "italic") ∨
      (¬ get_font_italic I f.path ∧ styles.contains "roman"))
  else c1

/-- `select_fonts`: walk the priorities in order; a variable-format label
with a non-empty bucket is selected whole (with a warning when weights or
styles were supplied); a static-format label is selected when its bucket
filters to a non-empty candidate list; otherwise continue.  Returns the
selected files, the matched label (empty when nothing matched) and the
warnings printed. -/
def select_fonts (I : Introspector) (c : Categorized) :
    List String → List Int → List String → List FontFile × String × List String
  | [], _, _ => ([], "", [])
  | pri :: rest, weights, styles =>
    if pri = "variable-woff2" ∧ c.variable_woff2s ≠ [] then
      (c.variable_woff2s, pri, varWarn weights styles)
    else if pri = "static-woff2" ∧ c.static_woff2s ≠ [] then
      let candidates := filterCandidates I weights styles c.static_woff2s
      if candidates ≠ [] then (candidates, pri, [])
      else select_fonts I c rest weights styles
    else if pri = "variable-woff" ∧ c.variable_woffs ≠ [] then
      (c.variable_woffs, pri, varWarn weights styles)
    else if pri = "static-woff" ∧ c.static_woffs ≠ [] then
      let candidates := filterCandidates I weights styles c.static_woffs
      if candidates ≠ [] then (candidates, pri, [])
      else select_fonts I c rest weights styles
    else if pri = "variable-ttf" ∧ c.variable_ttfs ≠ [] then
      (c.variable_ttfs, pri, varWarn weights styles)
    else if pri = "otf" ∧ c.otf_files ≠ [] then
      let candidates := filterCandidates I weights styles c.otf_files
      if candidates ≠ [] then (candidates, pri, [])
      else select_fonts I c rest weights styles
    else if pri = "static-ttf" ∧ c.static_ttfs ≠ [] then
      let candidates := filterCandidates I weights styles c.static_ttfs
      if candidates ≠ [] then (candidates, pri, [])
      else select_fonts I c rest weights styles
    else select_fonts I c rest weights styles

/-- The bucket a `FormatLabel` names, `none` for an unknown token. -/
def bucketFor (c : Categorized) (pri : String) : Option (List FontFile) :=
  if pri = "variable-woff2" then some c.variable_woff2s
  else if pri = "static-woff2" then some c.static_woff2s
  else if pri = "variable-woff" then some c.variable_woffs
  else if pri = "static-woff" then some c.static_woffs
  else if pri = "variable-ttf" then some c.variable_ttfs
  else if pri = "otf" then some c.otf_files
  else if pri = "static-ttf" then some c.static_ttfs
  else none

/-- The variable `FormatLabel`s. -/
def isVariableLabel (pri : String) : Bool :=
  pri = "variable-ttf" ∨ pri = "variable-woff" ∨ pri = "variable-woff2"

/-- Written from the spec's words (§4.3, §8 properties 2): the bucket a
label selects *after* the spec's per-bucket filtering — a variable bucket
is taken whole, a static bucket is weight/style filtered. -/
def specFilteredBucket (I : Introspector) (c : Categorized) (weights : List Int)
    (styles : List String) (pri : String) : Option (List FontFile) :=
  (bucketFor c pri).map (fun b =>
    if isVariableLabel pri then b else filterCandidates I weights styles b)

/-- Written from the spec's words: first-match-wins over the priorities —
return the contents and label of the first priority whose bucket is
non-empty after filtering, an empty list and empty label otherwise. -/
def specSelectFirstMatch (I : Introspector) (c : Categorized) (weights : List Int)
    (styles : List String) : List String → List FontFile × String
  | [] => ([], "")
  | pri :: rest =>
    match specFilteredBucket I c weights styles pri with
    | some b => if b ≠ [] then (b, pri) else specSelectFirstMatch I c weights styles rest
    | none => specSelectFirstMatch I c weights styles rest


theorem filterCandidates_nil (I : Introspector) (weights : List Int) (styles : List String) :
    filterCandidates I weights styles [] = [] := by
  simp [filterCandidates]

theorem select_fonts_eq_spec (I : Introspector) (c : Categorized)
    (priorities : List String) (weights : List Int) (styles : List String) :
    ((select_fonts I c priorities weights styles).1,
     (select_fonts I c priorities weights styles).2.1) =
      specSelectFirstMatch I c weights styles priorities := by
  induction priorities with
  | nil => rfl
  | cons pri rest ih =>
    by_cases h1 : pri = "variable-woff2"
    · subst h1
      by_cases hb : c.variable_woff2s = [] <;>
        simp [select_fonts, specSelectFirstMatch, specFilteredBucket, bucketFor,
          isVariableLabel, filterCandidates_nil, hb, ih]
    · by_cases h2 : pri = "static-woff2"
      · subst h2
        by_cases hb : c.static_woff2s = []
        · simp [select_fonts, specSelectFirstMatch, specFilteredBucket, bucketFor,
            isVariableLabel, filterCandidates_nil, hb, ih]
        · by_cases hc : filterCandidates I weights styles c.static_woff2s = [] <;>
            simp [select_fonts, specSelectFirstMatch, specFilteredBucket, bucketFor,
              isVariableLabel, hb, hc, ih]
      · by_cases h3 : pri = "variable-woff"
        · subst h3
          by_cases hb : c.variable_woffs = [] <;>
            simp [select_fonts, specSelectFirstMatch, specFilteredBucket, bucketFor,
              isVariableLabel, filterCandidates_nil, hb, ih]
        · by_cases h4 : pri = "static-woff"
          · subst h4
            by_cases hb : c.static_woffs = []
            · simp [select_fonts, specSelectFirstMatch, specFilteredBucket, bucketFor,
                isVariableLabel, filterCandidates_nil, hb, ih]
            · by_cases hc : filterCandidates I weights styles c.static_woffs = [] <;>
                simp [select_fonts, specSelectFirstMatch, specFilteredBucket, bucketFor,
                  isVariableLabel, hb, hc, ih]
          · by_cases h5 : pri = "variable-ttf"
            · subst h5
              by_cases hb : c.variable_ttfs = [] <;>
                simp [select_fonts, specSelectFirstMatch, specFilteredBucket, bucketFor,
                  isVariableLabel, filterCandidates_nil, hb, ih]
            · by_cases h6 : pri = "otf"
              · subst h6
                by_cases hb : c.otf_files = []
                · simp [select_fonts, specSelectFirstMatch, specFilteredBucket, bucketFor,
                    isVariableLabel, filterCandidates_nil, hb, ih]
                · by_cases hc : filterCandidates I weights styles c.otf_files = [] <;>
                    simp [select_fonts, specSelectFirstMatch, specFilteredBucket, bucketFor,
                      isVariableLabel, hb, hc, ih]
              · by_cases h7 : pri = "static-ttf"
                · subst h7
                  by_cases hb : c.static_ttfs = []
                  · simp [select_fonts, specSelectFirstMatch, specFilteredBucket, bucketFor,
                      isVariableLabel, filterCandidates_nil, hb, ih]
                  · by_cases hc : filterCandidates I weights styles c.static_ttfs = [] <;>
                      simp [select_fonts, specSelectFirstMatch, specFilteredBucket, bucketFor,
                        isVariableLabel, hb, hc, ih]
                · simp [select_fonts, specSelectFirstMatch, specFilteredBucket, bucketFor,
                    isVariableLabel, h1, h2, h3, h4, h5, h6, h7, ih]

/-- C1: for every priorities list, seven-bucket categorization, weights list
and styles list, `select_fonts` returns the contents and label of the first
priority in list order whose bucket is non-empty after the per-bucket
weight/style filtering (a variable bucket being taken whole, per §4.3), and
an empty list with an empty label when no priority yields a non-empty
filtered result; in particular the result is empty whenever `priorities`
is empty. -/
theorem select_fonts_first_match_policy (I : Introspector) (c : Categorized)
    (priorities : List String) (weights : List Int) (styles : List String) :
    ((select_fonts I c priorities weights styles).1,
     (select_fonts I c priorities weights styles).2.1) =
      specSelectFirstMatch I c weights styles priorities ∧
    select_fonts I c [] weights styles = ([], "", []) :=
  ⟨select_fonts_eq_spec I c priorities weights styles, rfl⟩


theorem routeVariable_fst (I : Introspector) (l : List FontFile) :
    (routeVariable I l).1 = l.filter (fun f => is_variable_font I f.path = some true) := by
  induction l with
  | nil => rfl
  | cons f rest ih =>
    simp only [routeVariable, List.filter_cons]
    cases hv : is_variable_font I f.path with
    | none => simp [hv, ih]
    | some b => cases b <;> simp [hv, ih]

theorem routeVariable_snd (I : Introspector) (l : List FontFile) :
    (routeVariable I l).2 = l.filter (fun f => is_variable_font I f.path ≠ some true) := by
  induction l with
  | nil => rfl
  | cons f rest ih =>
    simp only [routeVariable, List.filter_cons]
    cases hv : is_variable_font I f.path with
    | none => simp [hv, ih]
    | some b => cases b <;> simp [hv, ih]

theorem routeVariable_perm (I : Introspector) (l : List FontFile) :
    ((routeVariable I l).1 ++ (routeVariable I l).2).Perm l := by
  induction l with
  | nil => simp [routeVariable]
  | cons f rest ih =>
    simp only [routeVariable]
    cases hv : is_variable_font I f.path with
    | none => exact List.perm_middle.trans (ih.cons f)
    | some b =>
      cases b
      · exact List.perm_middle.trans (ih.cons f)
      · simpa using ih.cons f

theorem four_ext_filter_perm (l : List FontFile)
    (h : ∀ f ∈ l, lowerString f.suffix ∈ [".ttf", ".otf", ".woff", ".woff2"]) :
    (l.filter (fun f => lowerString f.suffix = ".ttf") ++
     (l.filter (fun f => lowerString f.suffix = ".otf") ++
      (l.filter (fun f => lowerString f.suffix = ".woff") ++
       l.filter (fun f => lowerString f.suffix = ".woff2")))).Perm l := by
  induction l with
  | nil => simp
  | cons f rest ih =>
    have hf := h f (List.mem_cons_self f rest)
    have h' : ∀ g ∈ rest, lowerString g.suffix ∈ [".ttf", ".otf", ".woff", ".woff2"] :=
      fun g hg => h g (List.mem_cons_of_mem f hg)
    simp only [List.mem_cons, List.mem_singleton, List.not_mem_nil, or_false] at hf
    rcases hf with hf | hf | hf | hf
    · simp [List.filter_cons, hf]
      exact ih h' 
    · simp [List.filter_cons, hf]
      exact List.perm_middle.trans ((ih h').cons f)
    · simp [List.filter_cons, hf]
      exact ((List.Perm.append_left _ List.perm_middle).trans List.perm_middle).trans ((ih h').cons f)
    · simp [List.filter_cons, hf]
      exact ((List.Perm.append_left _ ((List.Perm.append_left _ List.perm_middle).trans
        List.perm_middle)).trans List.perm_middle).trans ((ih h').cons f)


/-- C2: for inputs whose extensions are case-insensitively among
`.ttf`/`.otf`/`.woff`/`.woff2`, the seven buckets of `categorize_fonts`
partition the input as a multiset; each bucket is the in-order sublist of
the input with that extension, `.otf` files are never variable-checked,
and `.ttf`/`.woff`/`.woff2` files go to the variable sub-bucket exactly
when `is_variable_font` returned `some true`, an inspection failure
routing to the static sub-bucket. -/
theorem categorize_fonts_partition (I : Introspector) (font_files : List FontFile)
    (h : ∀ f ∈ font_files, lowerString f.suffix ∈ [".ttf", ".otf", ".woff", ".woff2"]) :
    (categorize_fonts I font_files).variable_ttfs =
      (font_files.filter (fun f => lowerString f.suffix = ".ttf")).filter
        (fun f => is_variable_font I f.path = some true) ∧
    (categorize_fonts I font_files).static_ttfs =
      (font_files.filter (fun f => lowerString f.suffix = ".ttf")).filter
        (fun f => is_variable_font I f.path ≠ some true) ∧
    (categorize_fonts I font_files).otf_files =
      font_files.filter (fun f => lowerString f.suffix = ".otf") ∧
    (categorize_fonts I font_files).variable_woffs =
      (font_files.filter (fun f => lowerString f.suffix = ".woff")).filter
        (fun f => is_variable_font I f.path = some true) ∧
    (categorize_fonts I font_files).static_woffs =
      (font_files.filter (fun f => lowerString f.suffix = ".woff")).filter
        (fun f => is_variable_font I f.path ≠ some true) ∧
    (categorize_fonts I font_files).variable_woff2s =
      (font_files.filter (fun f => lowerString f.suffix = ".woff2")).filter
        (fun f => is_variable_font I f.path = some true) ∧
    (categorize_fonts I font_files).static_woff2s =
      (font_files.filter (fun f => lowerString f.suffix = ".woff2")).filter
        (fun f => is_variable_font I f.path ≠ some true) ∧
    ((categorize_fonts I font_files).variable_ttfs ++
     (categorize_fonts I font_files).static_ttfs ++
     (categorize_fonts I font_files).otf_files ++
     (categorize_fonts I font_files).variable_woffs ++
     (categorize_fonts I font_files).static_woffs ++
     (categorize_fonts I font_files).variable_woff2s ++
     (categorize_fonts I font_files).static_woff2s).Perm font_files := by
  refine ⟨?_, ?_, ?_, ?_, ?_, ?_, ?_, ?_⟩
  · simp [categorize_fonts, routeVariable_fst]
  · simp [categorize_fonts, routeVariable_snd]
  · simp [categorize_fonts]
  · simp [categorize_fonts, routeVariable_fst]
  · simp [categorize_fonts, routeVariable_snd]
  · simp [categorize_fonts, routeVariable_fst]
  · simp [categorize_fonts, routeVariable_snd]
  · have e1 := routeVariable_perm I (font_files.filter (fun f => lowerString f.suffix = ".ttf"))
    have e2 := routeVariable_perm I (font_files.filter (fun f => lowerString f.suffix = ".woff"))
    have e3 := routeVariable_perm I (font_files.filter (fun f => lowerString f.suffix = ".woff2"))
    refine List.Perm.trans ?_ (four_ext_filter_perm font_files h)
    simpa [categorize_fonts, List.append_assoc] using
      (List.Perm.append e1 (List.Perm.append_left
        (font_files.filter (fun f => lowerString f.suffix = ".otf"))
        (List.Perm.append e2 e3)))


/-- A priority token that selects nothing: unknown, or naming an empty
bucket.  `select_fonts` moves on to the next priority. -/
theorem select_fonts_skip (I : Introspector) (c : Categorized) (p : String)
    (rest : List String) (weights : List Int) (styles : List String)
    (hp : bucketFor c p = none ∨ bucketFor c p = some []) :
    select_fonts I c (p :: rest) weights styles = select_fonts I c rest weights styles := by
  by_cases h1 : p = "variable-woff2"
  · subst h1
    rcases hp with h | h
    · simp [bucketFor] at h
    · simp [bucketFor] at h
      simp [select_fonts, h]
  · by_cases h2 : p = "static-woff2"
    · subst h2
      rcases hp with h | h
      · simp [bucketFor] at h
      · simp [bucketFor] at h
        simp [select_fonts, h]
    · by_cases h3 : p = "variable-woff"
      · subst h3
        rcases hp with h | h
        · simp [bucketFor] at h
        · simp [bucketFor] at h
          simp [select_fonts, h]
      · by_cases h4 : p = "static-woff"
        · subst h4
          rcases hp with h | h
          · simp [bucketFor] at h
          · simp [bucketFor] at h
            simp [select_fonts, h]
        · by_cases h5 : p = "variable-ttf"
          · subst h5
            rcases hp with h | h
            · simp [bucketFor] at h
            · simp [bucketFor] at h
              simp [select_fonts, h]
          · by_cases h6 : p = "otf"
            · subst h6
              rcases hp with h | h
              · simp [bucketFor] at h
              · simp [bucketFor] at h
                simp [select_fonts, h]
            · by_cases h7 : p = "static-ttf"
              · subst h7
                rcases hp with h | h
                · simp [bucketFor] at h
                · simp [bucketFor] at h
                  simp [select_fonts, h]
              · simp [select_fonts, h1, h2, h3, h4, h5, h6, h7]

/-- A variable-format priority with a non-empty bucket is selected whole,
with the variable-fonts warning when weights or a strict styles subset
were supplied. -/
theorem select_fonts_variable_head (I : Introspector) (c : Categorized) (lab : String)
    (rest : List String) (weights : List Int) (styles : List String) (b : List FontFile)
    (hlab : isVariableLabel lab = true) (hb : bucketFor c lab = some b) (hne : b ≠ []) :
    select_fonts I c (lab :: rest) weights styles = (b, lab, varWarn weights styles) := by
  have hlab' : lab = "variable-ttf" ∨ lab = "variable-woff" ∨ lab = "variable-woff2" := by
    simpa [isVariableLabel] using hlab
  rcases hlab' with h | h | h <;> subst h <;>
    (simp [bucketFor] at hb; subst hb; simp [select_fonts, hne])

/-- The spec's "styles is a strict subset of the full style set": contained
in `{roman, italic}` but missing at least one of them. -/
def strictStyleSubset (styles : List String) : Prop :=
  (∀ s ∈ styles, s = "roman" ∨ s = "italic") ∧
    ¬ ("roman" ∈ styles ∧ "italic" ∈ styles)

theorem varWarn_ne_of (weights : List Int) (styles : List String)
    (h : weights ≠ [] ∨ strictStyleSubset styles) : varWarn weights styles ≠ [] := by
  rcases h with h | h
  · simp [varWarn, h]
  · have hs : styles ≠ ["roman", "italic"] := by
      intro he
      subst he
      exact h.2 (by simp)
    simp [varWarn, hs]

/-- C3: when the first priority naming a non-empty bucket is a variable
format, `select_fonts` returns that entire bucket unchanged — weights and
styles never alter the returned list — and the variable-fonts warning is
printed whenever `weights` is non-empty or `styles` is a strict subset of
the full style set. -/
theorem select_fonts_variable_bypass (I : Introspector) (c : Categorized)
    (pre rest : List String) (lab : String) (b : List FontFile)
    (weights : List Int) (styles : List String)
    (hpre : ∀ p ∈ pre, bucketFor c p = none ∨ bucketFor c p = some [])
    (hlab : isVariableLabel lab = true)
    (hb : bucketFor c lab = some b) (hne : b ≠ []) :
    select_fonts I c (pre ++ lab :: rest) weights styles =
      (b, lab, varWarn weights styles) ∧
    ((weights ≠ [] ∨ strictStyleSubset styles) →
      (select_fonts I c (pre ++ lab :: rest) weights styles).2.2 ≠ []) := by
  have hsel : select_fonts I c (pre ++ lab :: rest) weights styles =
      (b, lab, varWarn weights styles) := by
    induction pre with
    | nil => exact select_fonts_variable_head I c lab rest weights styles b hlab hb hne
    | cons p ps ih =>
      rw [List.cons_append, select_fonts_skip I c p (ps ++ lab :: rest) weights styles
        (hpre p (List.mem_cons_self p ps))]
      exact ih (fun q hq => hpre q (List.mem_cons_of_mem p hq))
  refine ⟨hsel, fun h => ?_⟩
  rw [hsel]
  exact varWarn_ne_of weights styles h


/-- A concrete introspector for witness instances. -/
def introW : Introspector :=
  { fvar := fun p =>
      if p = "v.ttf" then some true else if p = "bad.woff" then none else some false
    os2 := fun _ => some (400, false) }

/-- A concrete file pool for witness instances. -/
def filesW : List FontFile :=
  [{ path := "v.ttf", suffix := ".ttf" }, { path := "a.otf", suffix := ".OTF" },
   { path := "bad.woff", suffix := ".woff" }, { path := "b.woff2", suffix := ".woff2" }]

theorem categorize_fonts_partition_witness :
    ((categorize_fonts introW filesW).variable_ttfs ++
     (categorize_fonts introW filesW).static_ttfs ++
     (categorize_fonts introW filesW).otf_files ++
     (categorize_fonts introW filesW).variable_woffs ++
     (categorize_fonts introW filesW).static_woffs ++
     (categorize_fonts introW filesW).variable_woff2s ++
     (categorize_fonts introW filesW).static_woff2s).Perm filesW :=
  (categorize_fonts_partition introW filesW (by decide)).2.2.2.2.2.2.2

theorem select_fonts_variable_bypass_witness :
    select_fonts introW (categorize_fonts introW filesW)
        (["variable-woff2"] ++ "variable-ttf" :: ["otf"]) [400] ["roman"] =
      ([{ path := "v.ttf", suffix := ".ttf" }], "variable-ttf", [variableWarning]) :=
  ((select_fonts_variable_bypass introW (categorize_fonts introW filesW)
      ["variable-woff2"] ["otf"] "variable-ttf" [{ path := "v.ttf", suffix := ".ttf" }]
      [400] ["roman"] (by decide) (by decide) (by decide) (by decide)).1).trans (by decide)


/-! ## World model for the manifest modules

The filesystem state of the destination directory, the installed manifest,
and the external collaborators (fontTools, sha256) used by
`fonti/installer.py`, `fonti/library.py`, `fontpm/uninstaller.py` and
`fonti/updater.py`.  A file's state is `missing`, `unreadable` (exists but
any read raises), or its byte content (modelled opaquely as a string).
All oracles are keyed by file content, so repeated inspections of an
untouched file agree. -/

abbrev Bytes := String

inductive FileState
  | missing
  | unreadable
  | content (b : Bytes)
deriving DecidableEq, Repr

/-- The destination directory: filename to file state. -/
abbrev FS := List (String × FileState)

def fsGet (fs : FS) (name : String) : FileState :=
  (alGet fs name).getD FileState.missing

def fsWrite (fs : FS) (name : String) (b : Bytes) : FS :=
  alSet fs name (FileState.content b)

def fsUnlink (fs : FS) (name : String) : FS :=
  alErase fs name

/-- One installation record (`fonti/types.py` `FontEntry`).  The
`filename` field is not part of `fonti`'s `FontEntry` and is never written
by `fonti/installer.py`; it models the optional legacy JSON field (older
manifests nest the filename inside the record — spec §6) that
`fonti/updater.py` reads. -/
structure FontEntry where
  hash : String
  type : String
  version : String
  owner : String
  repo_name : String
  filename : Option String := none
deriving DecidableEq, Repr

/-- One repo's records: filename to record. -/
abbrev RepoFonts := List (String × FontEntry)

/-- The installed manifest: lowercased repo key to records. -/
abbrev Manifest := List (String × RepoFonts)

/-- External collaborators, keyed by file content: `parseOk b` is whether
`TTFont` opens the content without raising, `fvarOf b` the outcome of
`is_variable_font` (`none` models a raised exception), `sha256 b` the
SHA-256 hex digest. -/
structure Sys where
  parseOk : Bytes → Bool
  fvarOf : Bytes → Option Bool
  sha256 : Bytes → String

/-! ## `fonti/config.py`: `load_installed_data`

The filesystem interaction is two oracle inputs: whether
`INSTALLED_FILE.exists()`, and the outcome of `open` + `json.load`
(`none` models any exception: unreadable file, malformed JSON, ...). -/

/-- `load_installed_data`: `{}` when the file is missing or unparsable,
otherwise the parsed manifest with every top-level key lowercased. -/
def load_installed_data (installedFileExists : Bool) (parsed : Option Manifest) : Manifest :=
  if !installedFileExists then []
  else
    match parsed with
    | none => []
    | some data => data.foldl (fun acc kv => alSet acc (lowerString kv.1) kv.2) []

theorem mem_alSet {α : Type} (l : List (String × α)) (k : String) (v : α)
    (p : String × α) (h : p ∈ alSet l k v) : p ∈ l ∨ p = (k, v) := by
  induction l with
  | nil => simpa [alSet] using h
  | cons q rest ih =>
    by_cases hqk : q.1 = k
    · rw [show alSet (q :: rest) k v = (k, v) :: rest by
        cases q; simp [alSet]; intro hne; simp_all] at h
      rcases List.mem_cons.mp h with h | h
      · exact Or.inr h
      · exact Or.inl (List.mem_cons_of_mem q h)
    · rw [show alSet (q :: rest) k v = q :: alSet rest k v by
        cases q; simp [alSet]; intro he; simp_all] at h
      rcases List.mem_cons.mp h with h | h
      · exact Or.inl (h ▸ List.mem_cons_self q rest)
      · rcases ih h with h | h
        · exact Or.inl (List.mem_cons_of_mem q h)
        · exact Or.inr h

theorem mem_load_fold (data : List (String × RepoFonts)) (init : Manifest)
    (p : String × RepoFonts)
    (h : p ∈ data.foldl (fun acc kv => alSet acc (lowerString kv.1) kv.2) init) :
    p ∈ init ∨ ∃ q ∈ data, p.1 = lowerString q.1 ∧ p.2 = q.2 := by
  induction data generalizing init with
  | nil => exact Or.inl h
  | cons kv rest ih =>
    rcases ih (alSet init (lowerString kv.1) kv.2) h with h' | h'
    · rcases mem_alSet init (lowerString kv.1) kv.2 p h' with h'' | h''
      · exact Or.inl h''
      · exact Or.inr ⟨kv, List.mem_cons_self kv rest, by simp [h'']⟩
    · rcases h' with ⟨q, hq, hk, hv⟩
      exact Or.inr ⟨q, List.mem_cons_of_mem kv hq, hk, hv⟩

theorem alGet_load_fold (data : List (String × RepoFonts)) (init : Manifest)
    (k : String) :
    alGet (data.foldl (fun acc kv => alSet acc (lowerString kv.1) kv.2) init) k =
      match (data.filter (fun q => lowerString q.1 = k)).getLast? with
      | some q => some q.2
      | none => alGet init k := by
  induction data generalizing init with
  | nil => simp
  | cons kv rest ih =>
    rw [List.foldl_cons, ih]
    cases hr : (rest.filter (fun q => lowerString q.1 = k)).getLast? with
    | some q =>
        have hne : rest.filter (fun q => lowerString q.1 = k) ≠ [] := by
          intro h0
          rw [h0] at hr
          simp at hr
        by_cases hk : lowerString kv.1 = k
        · rw [List.filter_cons_of_pos (by simpa using hk)]
          cases hc : rest.filter (fun q => lowerString q.1 = k) with
          | nil => exact absurd hc hne
          | cons x xs =>
              rw [hc] at hr
              simp [List.getLast?_cons_cons, hr]
        · rw [List.filter_cons_of_neg (by simpa using hk)]
          simp [hr]
    | none =>
        have hnil : rest.filter (fun q => lowerString q.1 = k) = [] :=
          List.getLast?_eq_none_iff.mp hr
        by_cases hk : lowerString kv.1 = k
        · rw [List.filter_cons_of_pos (by simpa using hk), hnil]
          simp [alGet_alSet, hk]
        · rw [List.filter_cons_of_neg (by simpa using hk), hnil]
          simp [alGet_alSet, hk]

/-- C10: `load_installed_data` is total over filesystem states: a missing
manifest file, or any failure to open or JSON-parse it, yields the empty
manifest; on success the result is the parsed manifest with every
top-level repo key lowercased — every entry of the result comes from the
parsed data with its key lowercased, and conversely looking up any key in
the result finds exactly the last parsed entry whose lowercased key
matches (Python dict-comprehension overwrite semantics), so no parsed
entry is dropped. -/
theorem load_installed_data_total_and_lowercases :
    (∀ parsed, load_installed_data false parsed = []) ∧
    (∀ installedFileExists, load_installed_data installedFileExists none = []) ∧
    (∀ data p, p ∈ load_installed_data true (some data) →
      ∃ q ∈ data, p.1 = lowerString q.1 ∧ p.2 = q.2) ∧
    (∀ data k, alGet (load_installed_data true (some data)) k =
      match (data.filter (fun q => lowerString q.1 = k)).getLast? with
      | some q => some q.2
      | none => none) := by
  refine ⟨fun parsed => rfl, fun ex => by cases ex <;> rfl, fun data p h => ?_,
    fun data k => ?_⟩
  · have := mem_load_fold data [] p (by simpa [load_installed_data] using h)
    simpa using this
  · have := alGet_load_fold data [] k
    simpa [load_installed_data, alGet] using this

theorem load_installed_data_witness :
    ∃ q ∈ [("MyRepo", ([] : RepoFonts))], ("myrepo", ([] : RepoFonts)).1 = lowerString q.1 ∧
      ("myrepo", ([] : RepoFonts)).2 = q.2 :=
  load_installed_data_total_and_lowercases.2.2.1 [("MyRepo", [])] ("myrepo", []) (by decide)


/-! ## `fonti/installer.py`

`install_fonts` is embedded from the point where the selected files are
known: a selected file is a (basename, content) pair from the extraction
directory; moving it writes the content under its basename in the
destination directory.  The manifest load/save globals are threaded as
explicit state. -/

structure SrcFile where
  name : String
  content : Bytes
deriving DecidableEq, Repr

/-- The record built by `install_fonts` for a moved file's bytes. -/
def mkEntry (S : Sys) (b : Bytes) (selected_pri version owner repo_name : String) : FontEntry :=
  { hash := S.sha256 b, type := selected_pri, version := version,
    owner := owner, repo_name := repo_name, filename := none }

/-- `install_fonts`: drop files `TTFont` rejects, move the valid ones to
the destination, and (non-local installs) record each moved file with a
fresh SHA-256 of its on-disk bytes; a file whose post-move read fails is
warned about and not recorded. -/
def install_fonts (S : Sys) (selected_fonts : List SrcFile) (fs : FS) (manifest : Manifest)
    (repo_name repo_key owner version selected_pri : String) (localInstall : Bool) :
    FS × Manifest :=
  if selected_fonts = [] then (fs, manifest)
  else
    let valid_fonts := selected_fonts.filter (fun f => S.parseOk f.content)
    let fs' := valid_fonts.foldl (fun acc f => fsWrite acc f.name f.content) fs
    if localInstall then (fs', manifest)
    else
      let m0 := if alHas manifest repo_key then manifest else alSet manifest repo_key []
      let m1 := valid_fonts.foldl (fun m f =>
        match fsGet fs' f.name with
        | FileState.content b =>
            alSet m repo_key (alSet ((alGet m repo_key).getD []) f.name
              (mkEntry S b selected_pri version owner repo_name))
        | _ => m) m0
      (fs', m1)

/-- The tail of `install_single_repo` (lines 354-393): the non-local
idempotent re-install guard, removal of superseded files and manifest
entry, then `install_fonts`.  The network/extraction phases that produce
`selected_fonts` and `selected_pri` are upstream of this state logic and
are taken as inputs. -/
def install_single_repo_core (S : Sys) (selected_fonts : List SrcFile)
    (selected_pri : String) (fs : FS) (manifest : Manifest)
    (repo_name repo_key owner version : String) (localInstall force : Bool) :
    FS × Manifest :=
  if localInstall then
    install_fonts S selected_fonts fs manifest repo_name repo_key owner version
      selected_pri localInstall
  else
    match alGet manifest repo_key with
    | some fonts =>
        let current_versions := (fonts.map (fun p => p.2.version)).dedup
        if current_versions.length = 1 ∧ current_versions.head? = some version ∧ ¬ force
        then (fs, manifest)
        else
          let fs' := fonts.foldl (fun acc p =>
            if fsGet acc p.1 ≠ FileState.missing then fsUnlink acc p.1 else acc) fs
          let m' := alErase manifest repo_key
          install_fonts S selected_fonts fs' m' repo_name repo_key owner version
            selected_pri localInstall
    | none =>
        install_fonts S selected_fonts fs manifest repo_name repo_key owner version
          selected_pri localInstall

theorem dedup_of_all_eq (l : List String) (v : String) (hne : l ≠ [])
    (h : ∀ x ∈ l, x = v) : l.dedup = [v] := by
  induction l with
  | nil => exact absurd rfl hne
  | cons x rest ih =>
    have hx : x = v := h x (List.mem_cons_self x rest)
    subst hx
    cases hr : rest with
    | nil => simp [List.dedup]
    | cons y ys =>
      have hrest : rest.dedup = [x] := by
        refine ih (by simp [hr]) (fun z hz => h z (List.mem_cons_of_mem x hz))
      have hmem : x ∈ rest := by
        have hy : y = x := by
          subst hr
          exact h y (List.mem_cons_of_mem x (List.mem_cons_self y ys))
        subst hr
        simp [hy]
      rw [← hr, List.dedup_cons_of_mem hmem, hrest]

/-- C4: a second non-forced, non-local install of a repo key whose
existing records all share the requested version returns without touching
the manifest or the filesystem: no record is added, removed or rehashed
and no installed file is deleted or re-moved. -/
theorem install_single_repo_idempotent (S : Sys) (selected_fonts : List SrcFile)
    (selected_pri : String) (fs : FS) (manifest : Manifest)
    (repo_name repo_key owner version : String) (fonts : RepoFonts)
    (hmem : alGet manifest repo_key = some fonts) (hne : fonts ≠ [])
    (hver : ∀ p ∈ fonts, p.2.version = version) :
    install_single_repo_core S selected_fonts selected_pri fs manifest
      repo_name repo_key owner version false false = (fs, manifest) := by
  have hdedup : (fonts.map (fun p => p.2.version)).dedup = [version] := by
    refine dedup_of_all_eq _ version (by simpa using hne) ?_
    intro x hx
    rcases List.mem_map.mp hx with ⟨p, hp, he⟩
    exact he ▸ hver p hp
  simp [install_single_repo_core, hmem, hdedup]

theorem install_single_repo_idempotent_witness :
    install_single_repo_core
      { parseOk := fun _ => true, fvarOf := fun _ => some false, sha256 := fun b => b }
      [{ name := "a.ttf", content := "bytesA" }] "static-ttf" []
      [("roboto", [("a.ttf",
        { hash := "bytesA", type := "static-ttf", version := "1.0",
          owner := "o", repo_name := "roboto" })])]
      "roboto" "roboto" "o" "1.0" false false =
      ([], [("roboto", [("a.ttf",
        { hash := "bytesA", type := "static-ttf", version := "1.0",
          owner := "o", repo_name := "roboto" })])]) :=
  install_single_repo_idempotent
    { parseOk := fun _ => true, fvarOf := fun _ => some false, sha256 := fun b => b }
    [{ name := "a.ttf", content := "bytesA" }] "static-ttf" []
    [("roboto", [("a.ttf",
      { hash := "bytesA", type := "static-ttf", version := "1.0",
        owner := "o", repo_name := "roboto" })])]
    "roboto" "roboto" "o" "1.0"
    [("a.ttf",
      { hash := "bytesA", type := "static-ttf", version := "1.0",
        owner := "o", repo_name := "roboto" })]
    (by decide) (by decide) (by decide)


/-! ## `fonti/library.py`: the repair pass (`fix_fonts`)

The detection phase of `fix_fonts` is embedded as a pure planning function
producing the ordered list of proposed fixups; the fixup callbacks
(`del_repo`, `del_entry`, `del_duplicate`, `update_hash`, `reinstall_repo`)
that the driver later applies are embedded separately where a claim needs
them.  Planning performs no filesystem mutation. -/

/-- `google_fonts.parse_repo`: `owner, repo_name = repo_arg.split("/")`,
a `ValueError` (`none`) unless the split has exactly two parts. -/
def parse_repo (repo_arg : String) : Option (String × String) :=
  match splitOnChar '/' repo_arg with
  | [owner, repo_name] => some (owner, repo_name)
  | _ => none

/-- The fixed type-to-extension table of `fix_fonts`. -/
def type_to_ext (t : String) : Option String :=
  if t = "variable-ttf" then some ".ttf"
  else if t = "static-ttf" then some ".ttf"
  else if t = "otf" then some ".otf"
  else if t = "variable-woff" then some ".woff"
  else if t = "static-woff" then some ".woff"
  else if t = "variable-woff2" then some ".woff2"
  else if t = "static-woff2" then some ".woff2"
  else none

/-- A proposed fixup, in the order `fix_fonts` appends them. -/
inductive Action
  | delRepo (repo : String)
  | delEntry (repo filename : String)
  | delDuplicate (repo filename : String)
  | updateHash (repo filename newHash : String)
  | reinstall (repo reason : String)
deriving DecidableEq, Repr

/-- Check 1: a repo key containing `/` that `parse_repo` rejects. -/
def invalidRepo (repo : String) : Bool :=
  containsChar repo '/' ∧ (parse_repo repo).isNone

/-- Check 2 per entry: the recorded type implies an extension the filename
does not end with. -/
def entryInvalid (filename : String) (e : FontEntry) : Bool :=
  match type_to_ext e.type with
  | some expected_ext => ¬ strEndsWith filename expected_ext
  | none => false

def phase1_actions (m : Manifest) : List Action :=
  ((alKeys m).filter invalidRepo).map Action.delRepo

def phase2_actions (m : Manifest) : List Action :=
  (m.map (fun rp =>
    if invalidRepo rp.1 then []
    else rp.2.filterMap (fun fe =>
      if entryInvalid fe.1 fe.2 then some (Action.delEntry rp.1 fe.1) else none))).flatten

/-- `defaultdict(list)` append used to build `filename_to_repos`. -/
def addToMultimap (mm : List (String × List String)) (k v : String) :
    List (String × List String) :=
  match alGet mm k with
  | some l => alSet mm k (l ++ [v])
  | none => mm ++ [(k, [v])]

/-- `filename_to_repos`: filename to the repos (surviving checks 1 and 2)
recording it, repos in manifest iteration order. -/
def filename_to_repos (m : Manifest) : List (String × List String) :=
  m.foldl (fun mm rp =>
    if invalidRepo rp.1 then mm
    else rp.2.foldl (fun mm2 fe =>
      if entryInvalid fe.1 fe.2 then mm2 else addToMultimap mm2 fe.1 rp.1) mm) []

def duplicates (m : Manifest) : List (String × List String) :=
  (filename_to_repos m).filter (fun p => p.2.length > 1)

def phase3_actions (m : Manifest) : List Action :=
  ((duplicates m).map (fun p => p.2.tail.map (fun r => Action.delDuplicate r p.1))).flatten

/-- `is_duplicate_to_remove` in the integrity loop. -/
def isDuplicateToRemove (m : Manifest) (repo filename : String) : Bool :=
  (duplicates m).any (fun p => p.2.tail.any (fun r => repo = r ∧ filename = p.1))

/-- The update-hash action (if any) the integrity loop appends for one
surviving entry. -/
def entryActs (S : Sys) (fs : FS) (m : Manifest) (repo filename : String)
    (e : FontEntry) : List Action :=
  if invalidRepo repo ∨ entryInvalid filename e ∨ isDuplicateToRemove m repo filename
  then []
  else
    match fsGet fs filename with
    | FileState.content b =>
        if ¬ S.parseOk b then []
        else
          match S.fvarOf b with
          | none => []
          | some is_var =>
              if (strStartsWith e.type "variable-") ≠ is_var then []
              else if S.sha256 b ≠ e.hash then
                [Action.updateHash repo filename (S.sha256 b)]
              else []
    | _ => []

/-- The `repos_to_reinstall[repo] = reason` assignment (if any) the
integrity loop performs for one surviving entry. -/
def entryReinstallReason (S : Sys) (fs : FS) (m : Manifest) (repo filename : String)
    (e : FontEntry) : Option String :=
  if invalidRepo repo ∨ entryInvalid filename e ∨ isDuplicateToRemove m repo filename
  then none
  else
    match fsGet fs filename with
    | FileState.missing => some "missing file(s)"
    | FileState.unreadable => some "invalid font file(s)"
    | FileState.content b =>
        if ¬ S.parseOk b then some "invalid font file(s)"
        else
          match S.fvarOf b with
          | none => some "invalid font file(s)"
          | some is_var =>
              if (strStartsWith e.type "variable-") ≠ is_var then
                some "variable/static mismatch"
              else none

/-- One iteration of the integrity loop: append the entry's action (if
any) and record its reinstall reason (if any). -/
def integrity_step (S : Sys) (fs : FS) (m : Manifest)
    (st : List Action × List (String × String)) (repo filename : String)
    (e : FontEntry) : List Action × List (String × String) :=
  (st.1 ++ entryActs S fs m repo filename e,
   match entryReinstallReason S fs m repo filename e with
   | some reason => alSet st.2 repo reason
   | none => st.2)

/-- The integrity loop over all manifest entries in iteration order. -/
def integrity_fold (S : Sys) (fs : FS) (m : Manifest) :
    List (String × String × FontEntry) → List Action × List (String × String) →
      List Action × List (String × String)
  | [], st => st
  | (repo, filename, e) :: rest, st =>
      integrity_fold S fs m rest (integrity_step S fs m st repo filename e)

/-- All manifest entries in iteration order. -/
def entry_list (m : Manifest) : List (String × String × FontEntry) :=
  (m.map (fun rp => rp.2.map (fun fe => (rp.1, fe.1, fe.2)))).flatten

def integrity_result (S : Sys) (fs : FS) (m : Manifest) :
    List Action × List (String × String) :=
  integrity_fold S fs m (entry_list m) ([], [])

/-- Insertion step for `sorted(repos_to_reinstall.items())` (keys are
unique, so sorting by key matches Python's tuple sort). -/
def insertSortedPair (x : String × String) :
    List (String × String) → List (String × String)
  | [] => [x]
  | y :: ys =>
      if charListLt x.1.data y.1.data then x :: y :: ys else y :: insertSortedPair x ys

def sortReinstalls (l : List (String × String)) : List (String × String) :=
  l.foldr insertSortedPair []

def reinstall_actions (S : Sys) (fs : FS) (m : Manifest) : List Action :=
  (sortReinstalls (integrity_result S fs m).2).map (fun p => Action.reinstall p.1 p.2)

/-- The full ordered fixup plan of `fix_fonts`'s detection phase. -/
def fix_plan (S : Sys) (m : Manifest) (fs : FS) : List Action :=
  phase1_actions m ++ phase2_actions m ++ phase3_actions m ++
    (integrity_result S fs m).1 ++ reinstall_actions S fs m

/-- The `update_hash` fixup callback: replace the stored hash when the
repo and filename are still present. -/
def update_hash (m : Manifest) (repo filename new_hash : String) : Manifest :=
  match alGet m repo with
  | some fonts =>
      match alGet fonts filename with
      | some e => alSet m repo (alSet fonts filename { e with hash := new_hash })
      | none => m
  | none => m


theorem alGet_append {α : Type} (l1 l2 : List (String × α)) (k : String) :
    alGet (l1 ++ l2) k = match alGet l1 k with
      | some v => some v
      | none => alGet l2 k := by
  induction l1 with
  | nil => simp [alGet]
  | cons p rest ih =>
    by_cases h : p.1 = k
    · cases p
      simp_all [alGet]
    · cases p
      simp_all [alGet]

theorem alGet_none_iff {α : Type} (l : List (String × α)) (k : String) :
    alGet l k = none ↔ k ∉ alKeys l := by
  induction l with
  | nil => simp [alGet, alKeys]
  | cons p rest ih =>
    cases p with
    | mk a b =>
      by_cases h : a = k
      · subst h
        simp [alGet, alKeys]
      · have hka : ¬ k = a := fun he => h he.symm
        simp [alGet, alKeys, h, hka, ih]

theorem alGet_mem {α : Type} (l : List (String × α)) (k : String) (v : α)
    (h : alGet l k = some v) : (k, v) ∈ l := by
  induction l with
  | nil => simp [alGet] at h
  | cons p rest ih =>
    cases p with
    | mk a b =>
      by_cases ha : a = k
      · subst ha
        simp [alGet] at h
        simp [h]
      · simp [alGet, ha] at h
        exact List.mem_cons_of_mem _ (ih h)

theorem mem_alGet_of_nodup {α : Type} (l : List (String × α)) (k : String) (v : α)
    (hnd : (alKeys l).Nodup) (h : (k, v) ∈ l) : alGet l k = some v := by
  induction l with
  | nil => simp at h
  | cons p rest ih =>
    cases p with
    | mk a b =>
      have hsplit := List.nodup_cons.mp hnd
      rcases List.mem_cons.mp h with h' | h'
      · injection h' with h1 h2
        subst h1
        subst h2
        simp [alGet]
      · by_cases hak : a = k
        · exfalso
          subst hak
          exact hsplit.1 (List.mem_map.mpr ⟨(a, v), h', rfl⟩)
        · simp only [alGet, if_neg hak]
          exact ih hsplit.2 h'

theorem alKeys_alSet {α : Type} (l : List (String × α)) (k : String) (v : α) :
    alKeys (alSet l k v) = if alHas l k then alKeys l else alKeys l ++ [k] := by
  induction l with
  | nil => simp [alSet, alKeys, alHas, alGet]
  | cons p rest ih =>
    cases p with
    | mk a b =>
      by_cases h : a = k
      · subst h
        simp [alSet, alKeys, alHas, alGet]
      · have hhas : alHas ((a, b) :: rest) k = alHas rest k := by
          simp [alHas, alGet, h]
        simp only [alKeys] at ih
        by_cases hh : alHas rest k
        · simp [alSet, h, alKeys, hhas, hh, ih]
        · simp [alSet, h, alKeys, hhas, hh, ih]

def getMM (mm : List (String × List String)) (k : String) : List String :=
  (alGet mm k).getD []

theorem alGet_addToMultimap (mm : List (String × List String)) (k v f : String) :
    alGet (addToMultimap mm k v) f =
      if f = k then some (getMM mm k ++ [v]) else alGet mm f := by
  by_cases hf : f = k
  · subst hf
    cases hm : alGet mm f with
    | some l => simp [addToMultimap, hm, alGet_alSet, getMM]
    | none => simp [addToMultimap, hm, alGet_append, getMM, alGet]
  · have hkf : ¬ k = f := fun he => hf he.symm
    cases hm : alGet mm k with
    | some l => simp [addToMultimap, hm, alGet_alSet, hf, hkf]
    | none =>
        simp only [addToMultimap, hm, alGet_append, if_neg hf]
        cases h2 : alGet mm f <;> simp [alGet, hkf]

theorem alKeys_addToMultimap_nodup (mm : List (String × List String)) (k v : String)
    (h : (alKeys mm).Nodup) : (alKeys (addToMultimap mm k v)).Nodup := by
  cases hm : alGet mm k with
  | some l =>
      have hhas : alHas mm k = true := by simp [alHas, hm]
      simp [addToMultimap, hm, alKeys_alSet, hhas, h]
  | none =>
      have hk : k ∉ alKeys mm := (alGet_none_iff mm k).mp hm
      have he : alKeys (mm ++ [(k, [v])]) = alKeys mm ++ [k] := by simp [alKeys]
      simp [addToMultimap, hm, he, List.nodup_append, h, hk]


/-- Whether the entries list `l` (one repo's fonts) contributes its repo to
`filename_to_repos` at filename `f`. -/
def contribL (l : RepoFonts) (f : String) : Bool :=
  match alGet l f with
  | some e => ¬ entryInvalid f e
  | none => false

theorem alGet_innerFold (r : String) (l : RepoFonts)
    (mm : List (String × List String)) (f : String)
    (hnd : (l.map Prod.fst).Nodup) :
    alGet (l.foldl (fun mm2 fe =>
        if entryInvalid fe.1 fe.2 then mm2 else addToMultimap mm2 fe.1 r) mm) f =
      if contribL l f then some (getMM mm f ++ [r]) else alGet mm f := by
  induction l generalizing mm with
  | nil => simp [contribL, alGet]
  | cons fe rest ih =>
    obtain ⟨a, b⟩ := fe
    have hsplit := List.nodup_cons.mp hnd
    simp only [List.foldl_cons]
    by_cases hf : f = a
    · subst hf
      have hrest : alGet rest f = none := by
        rw [alGet_none_iff]
        exact hsplit.1
      have hcrest : contribL rest f = false := by simp [contribL, hrest]
      by_cases hinv : entryInvalid f b
      · rw [if_pos hinv, ih mm hsplit.2, hcrest]
        simp [contribL, alGet, hinv]
      · rw [if_neg hinv, ih (addToMultimap mm f r) hsplit.2, hcrest]
        simp [contribL, alGet, hinv, alGet_addToMultimap, getMM]
    · have haf : ¬ a = f := fun he => hf he.symm
      have hc : contribL ((a, b) :: rest) f = contribL rest f := by
        simp [contribL, alGet, haf]
      by_cases hinv : entryInvalid a b
      · rw [if_pos hinv, ih mm hsplit.2, hc]
      · rw [if_neg hinv, ih (addToMultimap mm a r) hsplit.2, hc]
        have hg : alGet (addToMultimap mm a r) f = alGet mm f := by
          simp [alGet_addToMultimap, hf]
        have hgm : getMM (addToMultimap mm a r) f = getMM mm f := by simp [getMM, hg]
        rw [hg, hgm]

/-- Whether one repo contributes itself at filename `f`: valid repo key and
a surviving record for `f`. -/
def repoHasSurvivingEntry (rp : String × RepoFonts) (f : String) : Bool :=
  ¬ invalidRepo rp.1 ∧ contribL rp.2 f

/-- The repos recording filename `f` that survive checks 1 and 2, in
manifest iteration order. -/
def collectRepos (m : Manifest) (f : String) : List String :=
  (m.filter (fun rp => repoHasSurvivingEntry rp f)).map Prod.fst

theorem alGet_outerFold (m : Manifest) (mm : List (String × List String)) (f : String)
    (hwf : ∀ rp ∈ m, (rp.2.map Prod.fst).Nodup) :
    alGet (m.foldl (fun mm rp =>
        if invalidRepo rp.1 then mm
        else rp.2.foldl (fun mm2 fe =>
          if entryInvalid fe.1 fe.2 then mm2 else addToMultimap mm2 fe.1 rp.1) mm) mm) f =
      if collectRepos m f = [] then alGet mm f
      else some (getMM mm f ++ collectRepos m f) := by
  induction m generalizing mm with
  | nil => simp [collectRepos]
  | cons rp rest ih =>
    have hwf1 : (rp.2.map Prod.fst).Nodup := hwf rp (List.mem_cons_self rp rest)
    have hwf2 : ∀ q ∈ rest, (q.2.map Prod.fst).Nodup :=
      fun q hq => hwf q (List.mem_cons_of_mem rp hq)
    by_cases hinv : invalidRepo rp.1
    · have hcol : collectRepos (rp :: rest) f = collectRepos rest f := by
        simp [collectRepos, List.filter_cons, repoHasSurvivingEntry, hinv]
      simp only [List.foldl_cons, if_pos hinv, hcol]
      exact ih mm hwf2
    · by_cases hcon : contribL rp.2 f
      · have hcol : collectRepos (rp :: rest) f = rp.1 :: collectRepos rest f := by
          simp [collectRepos, List.filter_cons, repoHasSurvivingEntry, hinv, hcon]
        simp only [List.foldl_cons, if_neg hinv, hcol]
        rw [ih _ hwf2]
        have hmid := alGet_innerFold rp.1 rp.2 mm f hwf1
        rw [if_pos hcon] at hmid
        by_cases hrest : collectRepos rest f = []
        · simp [hrest, hmid]
        · have hgm : getMM (rp.2.foldl (fun mm2 fe =>
              if entryInvalid fe.1 fe.2 then mm2 else addToMultimap mm2 fe.1 rp.1) mm) f =
              getMM mm f ++ [rp.1] := by simp [getMM, hmid]
          simp [hrest, hgm]
      · have hcol : collectRepos (rp :: rest) f = collectRepos rest f := by
          simp [collectRepos, List.filter_cons, repoHasSurvivingEntry, hinv, hcon]
        simp only [List.foldl_cons, if_neg hinv, hcol]
        rw [ih _ hwf2]
        have hmid := alGet_innerFold rp.1 rp.2 mm f hwf1
        rw [if_neg (by simp [hcon])] at hmid
        have hgm : getMM (rp.2.foldl (fun mm2 fe =>
            if entryInvalid fe.1 fe.2 then mm2 else addToMultimap mm2 fe.1 rp.1) mm) f =
            getMM mm f := by simp [getMM, hmid]
        rw [hmid, hgm]

/-- `filename_to_repos` at `f` is exactly the surviving repos list. -/
theorem alGet_filename_to_repos (m : Manifest) (f : String)
    (hwf : ∀ rp ∈ m, (rp.2.map Prod.fst).Nodup) :
    alGet (filename_to_repos m) f =
      if collectRepos m f = [] then none else some (collectRepos m f) := by
  have := alGet_outerFold m [] f hwf
  simpa [filename_to_repos, getMM, alGet] using this

theorem filename_to_repos_keys_nodup (m : Manifest) :
    (alKeys (filename_to_repos m)).Nodup := by
  have inner : ∀ (r : String) (l : RepoFonts) (mm : List (String × List String)),
      (alKeys mm).Nodup →
      (alKeys (l.foldl (fun mm2 fe =>
        if entryInvalid fe.1 fe.2 then mm2 else addToMultimap mm2 fe.1 r) mm)).Nodup := by
    intro r l
    induction l with
    | nil => intro mm h; exact h
    | cons fe rest ih =>
      intro mm h
      simp only [List.foldl_cons]
      by_cases hinv : entryInvalid fe.1 fe.2
      · rw [if_pos hinv]
        exact ih mm h
      · rw [if_neg hinv]
        exact ih _ (alKeys_addToMultimap_nodup mm fe.1 r h)
  have outer : ∀ (ms : Manifest) (mm : List (String × List String)),
      (alKeys mm).Nodup →
      (alKeys (ms.foldl (fun mm rp =>
        if invalidRepo rp.1 then mm
        else rp.2.foldl (fun mm2 fe =>
          if entryInvalid fe.1 fe.2 then mm2 else addToMultimap mm2 fe.1 rp.1) mm) mm)).Nodup := by
    intro ms
    induction ms with
    | nil => intro mm h; exact h
    | cons rp rest ih =>
      intro mm h
      simp only [List.foldl_cons]
      by_cases hinv : invalidRepo rp.1
      · rw [if_pos hinv]
        exact ih mm h
      · rw [if_neg hinv]
        exact ih _ (inner rp.1 rp.2 mm h)
  exact outer m [] (by simp [alKeys])


theorem integrity_fold_actions (S : Sys) (fs : FS) (m : Manifest)
    (l : List (String × String × FontEntry)) (st : List Action × List (String × String)) :
    (integrity_fold S fs m l st).1 =
      st.1 ++ (l.map (fun t => entryActs S fs m t.1 t.2.1 t.2.2)).flatten := by
  induction l generalizing st with
  | nil => simp [integrity_fold]
  | cons t rest ih =>
    obtain ⟨r, f, e⟩ := t
    rw [integrity_fold, ih]
    simp [integrity_step]

theorem entryActs_shape (S : Sys) (fs : FS) (m : Manifest) (r f : String) (e : FontEntry)
    (a : Action) (ha : a ∈ entryActs S fs m r f e) : ∃ nh, a = Action.updateHash r f nh := by
  unfold entryActs at ha
  split at ha
  · simp at ha
  · split at ha
    · split at ha
      · simp at ha
      · split at ha
        · simp at ha
        · split at ha
          · simp at ha
          · split at ha
            · exact ⟨_, by simpa using ha⟩
            · simp at ha
    · simp at ha

theorem not_delDup_phase1 (m : Manifest) (r f : String) :
    Action.delDuplicate r f ∉ phase1_actions m := by
  intro h
  rcases List.mem_map.mp h with ⟨x, _, he⟩
  simp at he

theorem not_delDup_phase2 (m : Manifest) (r f : String) :
    Action.delDuplicate r f ∉ phase2_actions m := by
  intro h
  rcases List.mem_flatten.mp h with ⟨sub, hsub, hmem⟩
  rcases List.mem_map.mp hsub with ⟨rp, _, rfl⟩
  by_cases hinv : invalidRepo rp.1
  · rw [if_pos hinv] at hmem
    simp at hmem
  · rw [if_neg hinv] at hmem
    rcases List.mem_filterMap.mp hmem with ⟨fe, _, hfe⟩
    by_cases he : entryInvalid fe.1 fe.2
    · rw [if_pos he] at hfe
      simp at hfe
    · rw [if_neg he] at hfe
      simp at hfe

theorem not_delDup_integrity (S : Sys) (fs : FS) (m : Manifest) (r f : String) :
    Action.delDuplicate r f ∉ (integrity_result S fs m).1 := by
  intro h
  rw [integrity_result, integrity_fold_actions] at h
  simp only [List.nil_append] at h
  rcases List.mem_flatten.mp h with ⟨sub, hsub, hmem⟩
  rcases List.mem_map.mp hsub with ⟨t, _, rfl⟩
  rcases entryActs_shape S fs m t.1 t.2.1 t.2.2 _ hmem with ⟨nh, he⟩
  simp at he

theorem not_delDup_reinstall (S : Sys) (fs : FS) (m : Manifest) (r f : String) :
    Action.delDuplicate r f ∉ reinstall_actions S fs m := by
  intro h
  rcases List.mem_map.mp h with ⟨x, _, he⟩
  simp at he

theorem mem_phase3_iff (m : Manifest)
    (hwf2 : ∀ rp ∈ m, (rp.2.map Prod.fst).Nodup) (r f : String) :
    Action.delDuplicate r f ∈ phase3_actions m ↔
      ((collectRepos m f).length > 1 ∧ r ∈ (collectRepos m f).tail) := by
  constructor
  · intro h
    rcases List.mem_flatten.mp h with ⟨sub, hsub, hmem⟩
    rcases List.mem_map.mp hsub with ⟨p, hp, rfl⟩
    rcases List.mem_map.mp hmem with ⟨r', hr', heq⟩
    obtain ⟨hrr, hff⟩ : r' = r ∧ p.1 = f := by
      constructor <;> [skip; skip] <;> simp_all
    have hfilter := List.mem_filter.mp hp
    have hget : alGet (filename_to_repos m) p.1 = some p.2 := by
      refine mem_alGet_of_nodup _ _ _ (filename_to_repos_keys_nodup m) ?_
      cases p
      exact hfilter.1
    rw [alGet_filename_to_repos m p.1 hwf2] at hget
    by_cases hc : collectRepos m p.1 = []
    · rw [if_pos hc] at hget
      simp at hget
    · rw [if_neg hc] at hget
      have hp2 : p.2 = collectRepos m p.1 := by
        injection hget with hg
        exact hg.symm
      refine ⟨?_, ?_⟩
      · rw [← hff, ← hp2]
        simpa using hfilter.2
      · rw [← hff, ← hp2]
        exact hrr ▸ hr'
  · rintro ⟨hlen, hr⟩
    have hne : collectRepos m f ≠ [] := by
      intro h0
      rw [h0] at hlen
      simp at hlen
    have hget : alGet (filename_to_repos m) f = some (collectRepos m f) := by
      rw [alGet_filename_to_repos m f hwf2, if_neg hne]
    have hmem : (f, collectRepos m f) ∈ filename_to_repos m := alGet_mem _ _ _ hget
    have hdup : (f, collectRepos m f) ∈ duplicates m :=
      List.mem_filter.mpr ⟨hmem, by simpa using hlen⟩
    refine List.mem_flatten.mpr
      ⟨(collectRepos m f).tail.map (fun r2 => Action.delDuplicate r2 f), ?_, ?_⟩
    · exact List.mem_map.mpr ⟨(f, collectRepos m f), hdup, rfl⟩
    · exact List.mem_map.mpr ⟨r, hr, rfl⟩

/-- C6: for every filename recorded under two or more repos surviving the
invalid-repo and type/extension-mismatch checks, the repair plan proposes
removing that filename from every such repo except the first in manifest
iteration order, and proposes no removal from the first. -/
theorem fix_plan_duplicate_resolution (S : Sys) (fs : FS) (m : Manifest)
    (hwf : (alKeys m).Nodup ∧ ∀ rp ∈ m, (rp.2.map Prod.fst).Nodup) :
    (∀ f r, Action.delDuplicate r f ∈ fix_plan S m fs ↔
      ((collectRepos m f).length > 1 ∧ r ∈ (collectRepos m f).tail)) ∧
    (∀ f r0, (collectRepos m f).head? = some r0 →
      Action.delDuplicate r0 f ∉ fix_plan S m fs) := by
  have hiff : ∀ f r, Action.delDuplicate r f ∈ fix_plan S m fs ↔
      ((collectRepos m f).length > 1 ∧ r ∈ (collectRepos m f).tail) := by
    intro f r
    rw [← mem_phase3_iff m hwf.2 r f]
    simp only [fix_plan, List.mem_append]
    constructor
    · rintro ((((h | h) | h) | h) | h)
      · exact absurd h (not_delDup_phase1 m r f)
      · exact absurd h (not_delDup_phase2 m r f)
      · exact h
      · exact absurd h (not_delDup_integrity S fs m r f)
      · exact absurd h (not_delDup_reinstall S fs m r f)
    · intro h
      exact Or.inl (Or.inl (Or.inr h))
  refine ⟨hiff, fun f r0 hhead hmem => ?_⟩
  have hnd : (collectRepos m f).Nodup := by
    have hsub : List.Sublist (collectRepos m f) (alKeys m) :=
      List.Sublist.map Prod.fst (List.filter_sublist m)
    exact hwf.1.sublist hsub
  rcases (hiff f r0).mp hmem with ⟨_, htail⟩
  cases hc : collectRepos m f with
  | nil => rw [hc] at hhead; simp at hhead
  | cons x t =>
    rw [hc] at hhead htail
    have hx : x = r0 := by simpa using hhead
    rw [hc] at hnd
    exact (List.nodup_cons.mp hnd).1 (hx ▸ (by simpa using htail))


/-- Nested manifest lookup: `installed_data[repo][filename]`. -/
def alGet2 (m : Manifest) (repo filename : String) : Option FontEntry :=
  (alGet m repo).bind (fun fonts => alGet fonts filename)

theorem mem_entry_list (m : Manifest) (r f : String) (e : FontEntry) (fonts : RepoFonts)
    (hrepo : (r, fonts) ∈ m) (hentry : (f, e) ∈ fonts) :
    (r, f, e) ∈ entry_list m := by
  refine List.mem_flatten.mpr ⟨fonts.map (fun fe => (r, fe.1, fe.2)), ?_, ?_⟩
  · exact List.mem_map.mpr ⟨(r, fonts), hrepo, rfl⟩
  · exact List.mem_map.mpr ⟨(f, e), hentry, rfl⟩

/-- C7: an entry surviving the earlier checks whose file exists, parses,
and matches its recorded type's variable/static prefix, but whose current
SHA-256 differs from the record, only gets its stored hash refreshed: the
repair plan contains the hash-update fixup, the integrity step for this
entry records no reinstall reason, and applying `update_hash` changes
exactly that record's hash field and nothing else (it takes no filesystem
argument, so the on-disk file is untouched by construction). -/
theorem fix_plan_hash_drift (S : Sys) (fs : FS) (m : Manifest) (r f : String)
    (e : FontEntry) (b : Bytes) (fonts : RepoFonts)
    (hrepo : alGet m r = some fonts) (hentry : alGet fonts f = some e)
    (hinv : invalidRepo r = false) (hei : entryInvalid f e = false)
    (hdup : isDuplicateToRemove m r f = false)
    (hfs : fsGet fs f = FileState.content b)
    (hparse : S.parseOk b = true)
    (hvar : S.fvarOf b = some (strStartsWith e.type "variable-"))
    (hhash : S.sha256 b ≠ e.hash) :
    Action.updateHash r f (S.sha256 b) ∈ fix_plan S m fs ∧
    (∀ st, integrity_step S fs m st r f e =
      (st.1 ++ [Action.updateHash r f (S.sha256 b)], st.2)) ∧
    (∀ r2 f2, alGet2 (update_hash m r f (S.sha256 b)) r2 f2 =
      if r2 = r ∧ f2 = f then some { e with hash := S.sha256 b }
      else alGet2 m r2 f2) := by
  have hacts : entryActs S fs m r f e = [Action.updateHash r f (S.sha256 b)] := by
    simp [entryActs, hinv, hei, hdup, hfs, hparse, hvar, hhash]
  have hreason : entryReinstallReason S fs m r f e = none := by
    simp [entryReinstallReason, hinv, hei, hdup, hfs, hparse, hvar]
  refine ⟨?_, ?_, ?_⟩
  · have hmem : (r, f, e) ∈ entry_list m :=
      mem_entry_list m r f e fonts (alGet_mem m r fonts hrepo) (alGet_mem fonts f e hentry)
    have : Action.updateHash r f (S.sha256 b) ∈ (integrity_result S fs m).1 := by
      rw [integrity_result, integrity_fold_actions]
      simp only [List.nil_append]
      refine List.mem_flatten.mpr ⟨entryActs S fs m r f e, ?_, ?_⟩
      · exact List.mem_map.mpr ⟨(r, f, e), hmem, rfl⟩
      · rw [hacts]
        exact List.mem_singleton.mpr rfl
    simp [fix_plan, List.mem_append]
    tauto
  · intro st
    simp [integrity_step, hacts, hreason]
  · intro r2 f2
    simp only [update_hash, hrepo, hentry]
    by_cases hr2 : r2 = r
    · subst hr2
      by_cases hf2 : f2 = f
      · subst hf2
        simp [alGet2, alGet_alSet]
      · have hff : ¬ f = f2 := fun he => hf2 he.symm
        simp [alGet2, alGet_alSet, hf2, hff, hentry, hrepo]
    · have hrr : ¬ r = r2 := fun he => hr2 he.symm
      simp [alGet2, alGet_alSet, hr2, hrr]

/-- A concrete oracle for witness instances of the manifest modules. -/
def sysW : Sys :=
  { parseOk := fun _ => true, fvarOf := fun _ => some false, sha256 := fun b => b }

/-- A concrete manifest with a cross-repo duplicate filename. -/
def mDupW : Manifest :=
  [("a", [("f.ttf",
      { hash := "h1", type := "static-ttf", version := "1", owner := "o", repo_name := "a" })]),
   ("b", [("f.ttf",
      { hash := "h2", type := "static-ttf", version := "1", owner := "o", repo_name := "b" })])]

theorem fix_plan_duplicate_resolution_witness :
    Action.delDuplicate "b" "f.ttf" ∈ fix_plan sysW mDupW [] :=
  ((fix_plan_duplicate_resolution sysW [] mDupW ⟨by decide, by decide⟩).1 "f.ttf" "b").mpr
    (by decide)

/-- A concrete one-repo manifest whose file content drifted. -/
def mDriftW : Manifest :=
  [("a", [("f.ttf",
      { hash := "old", type := "static-ttf", version := "1", owner := "o", repo_name := "a" })])]

theorem fix_plan_hash_drift_witness :
    Action.updateHash "a" "f.ttf" "new" ∈
      fix_plan sysW mDriftW [("f.ttf", FileState.content "new")] :=
  (fix_plan_hash_drift sysW [("f.ttf", FileState.content "new")] mDriftW "a" "f.ttf"
    { hash := "old", type := "static-ttf", version := "1", owner := "o", repo_name := "a" }
    "new"
    [("f.ttf",
      { hash := "old", type := "static-ttf", version := "1", owner := "o", repo_name := "a" })]
    (by decide) (by decide) (by decide) (by decide) (by decide) (by decide)
    (by decide) (by decide) (by decide)).1


/-! ## Round-trip: install followed by the repair plan (C5) -/

/-- The fonts `install_fonts` keeps after the `TTFont` validity filter. -/
def validOf (S : Sys) (selected : List SrcFile) : List SrcFile :=
  selected.filter (fun f => S.parseOk f.content)

/-- The move loop of `install_fonts`. -/
def writeAll (valid : List SrcFile) (fs : FS) : FS :=
  valid.foldl (fun acc f => fsWrite acc f.name f.content) fs

/-- The recording loop of `install_fonts`, restricted to one repo key. -/
def recordsOf (S : Sys) (fs2 : FS) (pri v ow rn : String) (valid : List SrcFile) :
    RepoFonts :=
  valid.foldl (fun acc f =>
    match fsGet fs2 f.name with
    | FileState.content b => alSet acc f.name (mkEntry S b pri v ow rn)
    | _ => acc) []

theorem getLast?_mem2 {α : Type} (l : List α) (a : α) (h : l.getLast? = some a) :
    a ∈ l := by
  have hm : a ∈ l.getLast? := by rw [h]; rfl
  rcases List.mem_getLast?_eq_getLast hm with ⟨hne, heq⟩
  rw [heq]
  exact List.getLast_mem hne

theorem records_fold_singleton (S : Sys) (fs2 : FS) (pri v ow rn rk : String)
    (l : List SrcFile) (r0 : RepoFonts) :
    l.foldl (fun m f =>
      match fsGet fs2 f.name with
      | FileState.content b =>
          alSet m rk (alSet ((alGet m rk).getD []) f.name (mkEntry S b pri v ow rn))
      | _ => m) [(rk, r0)] =
      [(rk, l.foldl (fun acc f =>
        match fsGet fs2 f.name with
        | FileState.content b => alSet acc f.name (mkEntry S b pri v ow rn)
        | _ => acc) r0)] := by
  induction l generalizing r0 with
  | nil => rfl
  | cons f rest ih =>
    have h1 : alGet [(rk, r0)] rk = some r0 := by simp [alGet]
    have h2 : ∀ x : RepoFonts, alSet [(rk, r0)] rk x = [(rk, x)] := fun x => by
      simp [alSet]
    cases hf : fsGet fs2 f.name with
    | content b =>
        simp only [List.foldl_cons, hf, h1, Option.getD_some, h2]
        exact ih (alSet r0 f.name (mkEntry S b pri v ow rn))
    | missing =>
        simp only [List.foldl_cons, hf]
        exact ih r0
    | unreadable =>
        simp only [List.foldl_cons, hf]
        exact ih r0

/-- `install_fonts` on an empty manifest, non-local: move the valid fonts
and create the single repo entry. -/
theorem install_fonts_empty_manifest (S : Sys) (selected : List SrcFile) (fs : FS)
    (rn rk ow v pri : String) (hsel : selected ≠ []) :
    install_fonts S selected fs [] rn rk ow v pri false =
      (writeAll (validOf S selected) fs,
       [(rk, recordsOf S (writeAll (validOf S selected) fs) pri v ow rn
          (validOf S selected))]) := by
  rw [install_fonts, if_neg (by simpa using hsel)]
  simp only [Bool.false_eq_true, if_false]
  rw [show (if alHas ([] : Manifest) rk then ([] : Manifest) else alSet [] rk []) =
    [(rk, [])] by simp [alHas, alGet, alSet]]
  rw [records_fold_singleton]
  rfl

theorem fsGet_fsWrite (fs : FS) (n n2 : String) (b : Bytes) :
    fsGet (fsWrite fs n b) n2 =
      if n = n2 then FileState.content b else fsGet fs n2 := by
  simp only [fsGet, fsWrite, alGet_alSet]
  by_cases h : n = n2 <;> simp [h]

theorem fsGet_writeAll (l : List SrcFile) (fs : FS) (n : String) :
    fsGet (writeAll l fs) n =
      match (l.filter (fun f => f.name = n)).getLast? with
      | some g => FileState.content g.content
      | none => fsGet fs n := by
  induction l generalizing fs with
  | nil => simp [writeAll]
  | cons f rest ih =>
    rw [show writeAll (f :: rest) fs = writeAll rest (fsWrite fs f.name f.content) from rfl]
    rw [ih]
    cases hr : (rest.filter (fun g => g.name = n)).getLast? with
    | some g =>
        have hne : rest.filter (fun g => g.name = n) ≠ [] := by
          intro h0
          rw [h0] at hr
          simp at hr
        by_cases hf : f.name = n
        · rw [List.filter_cons_of_pos (by simpa using hf)]
          cases hc : rest.filter (fun g => g.name = n) with
          | nil => exact absurd hc hne
          | cons x xs =>
              rw [hc] at hr
              simp [List.getLast?_cons_cons, hr]
        · rw [List.filter_cons_of_neg (by simpa using hf)]
          simp [hr]
    | none =>
        have hnil : rest.filter (fun g => g.name = n) = [] :=
          List.getLast?_eq_none_iff.mp hr
        by_cases hf : f.name = n
        · rw [List.filter_cons_of_pos (by simpa using hf), hnil]
          simp [fsGet_fsWrite, hf]
        · rw [List.filter_cons_of_neg (by simpa using hf), hnil]
          simp [fsGet_fsWrite, hf]


theorem writeAll_get_of_mem (l : List SrcFile) (fs : FS) (f : SrcFile) (hf : f ∈ l) :
    ∃ g ∈ l, g.name = f.name ∧
      fsGet (writeAll l fs) f.name = FileState.content g.content := by
  have hmem : f ∈ l.filter (fun g => g.name = f.name) :=
    List.mem_filter.mpr ⟨hf, by simp⟩
  have hne : l.filter (fun g => g.name = f.name) ≠ [] := List.ne_nil_of_mem hmem
  cases hr : (l.filter (fun g => g.name = f.name)).getLast? with
  | none => exact absurd (List.getLast?_eq_none_iff.mp hr) hne
  | some g =>
      have hg := getLast?_mem2 _ _ hr
      have hgf := List.mem_filter.mp hg
      refine ⟨g, hgf.1, by simpa using hgf.2, ?_⟩
      simp [fsGet_writeAll, hr]

theorem records_fold_mem (S : Sys) (fs2 : FS) (pri v ow rn : String)
    (l : List SrcFile) (r0 : RepoFonts) (Q : String × FontEntry → Prop)
    (h0 : ∀ p ∈ r0, Q p)
    (hstep : ∀ f ∈ l, ∀ b, fsGet fs2 f.name = FileState.content b →
      Q (f.name, mkEntry S b pri v ow rn)) :
    ∀ p ∈ l.foldl (fun acc f =>
      match fsGet fs2 f.name with
      | FileState.content b => alSet acc f.name (mkEntry S b pri v ow rn)
      | _ => acc) r0, Q p := by
  induction l generalizing r0 with
  | nil => exact fun p hp => h0 p hp
  | cons f rest ih =>
    intro p hp
    have hstep' : ∀ g ∈ rest, ∀ b, fsGet fs2 g.name = FileState.content b →
        Q (g.name, mkEntry S b pri v ow rn) :=
      fun g hg => hstep g (List.mem_cons_of_mem f hg)
    cases hf : fsGet fs2 f.name with
    | content b =>
        simp only [List.foldl_cons, hf] at hp
        refine ih (alSet r0 f.name (mkEntry S b pri v ow rn)) ?_ hstep' p hp
        intro q hq
        rcases mem_alSet _ _ _ q hq with hq' | hq'
        · exact h0 q hq'
        · rw [hq']
          exact hstep f (List.mem_cons_self f rest) b hf
    | missing =>
        simp only [List.foldl_cons, hf] at hp
        exact ih r0 h0 hstep' p hp
    | unreadable =>
        simp only [List.foldl_cons, hf] at hp
        exact ih r0 h0 hstep' p hp

theorem alKeys_alSet_nodup {α : Type} (l : List (String × α)) (k : String) (v : α)
    (h : (alKeys l).Nodup) : (alKeys (alSet l k v)).Nodup := by
  rw [alKeys_alSet]
  by_cases hh : alHas l k
  · simp [hh, h]
  · have hk : k ∉ alKeys l := by
      rw [← alGet_none_iff]
      simp [alHas] at hh
      exact hh
    simp [hh, List.nodup_append, h, hk]

theorem records_fold_keys_nodup (S : Sys) (fs2 : FS) (pri v ow rn : String)
    (l : List SrcFile) (r0 : RepoFonts) (h0 : (alKeys r0).Nodup) :
    (alKeys (l.foldl (fun acc f =>
      match fsGet fs2 f.name with
      | FileState.content b => alSet acc f.name (mkEntry S b pri v ow rn)
      | _ => acc) r0)).Nodup := by
  induction l generalizing r0 with
  | nil => exact h0
  | cons f rest ih =>
    cases hf : fsGet fs2 f.name with
    | content b =>
        simp only [List.foldl_cons, hf]
        exact ih _ (alKeys_alSet_nodup r0 f.name _ h0)
    | missing =>
        simp only [List.foldl_cons, hf]
        exact ih r0 h0
    | unreadable =>
        simp only [List.foldl_cons, hf]
        exact ih r0 h0

theorem integrity_fold_trivial (S : Sys) (fs : FS) (m : Manifest)
    (l : List (String × String × FontEntry))
    (h : ∀ t ∈ l, entryActs S fs m t.1 t.2.1 t.2.2 = [] ∧
      entryReinstallReason S fs m t.1 t.2.1 t.2.2 = none) :
    ∀ st, integrity_fold S fs m l st = st := by
  induction l with
  | nil => intro st; rfl
  | cons t rest ih =>
    intro st
    obtain ⟨r, f, e⟩ := t
    have ht := h (r, f, e) (List.mem_cons_self _ rest)
    rw [integrity_fold, show integrity_step S fs m st r f e = st by
      simp [integrity_step, ht.1, ht.2]]
    exact ih (fun t2 h2 => h t2 (List.mem_cons_of_mem _ h2)) st


/-- C5 (amended): a non-local install into an empty manifest followed by
the repair plan on the untouched state proposes no fixups, provided the
repo key is one `fix_fonts`'s invalid-repo check accepts (no slash, or an
exact two-part `owner/name` split), every moved (`TTFont`-valid) filename
ends with the extension its selected format label implies, and inspection
of every moved file's content succeeds with a variable-ness matching the
label's `variable-` prefix. -/
theorem install_fix_plan_roundtrip (S : Sys) (selected : List SrcFile) (fs : FS)
    (repo_name repo_key owner version selected_pri : String)
    (hkey : invalidRepo repo_key = false)
    (hext : ∀ f ∈ validOf S selected, ∀ ext, type_to_ext selected_pri = some ext →
      strEndsWith f.name ext = true)
    (hvar : ∀ f ∈ validOf S selected,
      S.fvarOf f.content = some (strStartsWith selected_pri "variable-")) :
    fix_plan S
      (install_fonts S selected fs [] repo_name repo_key owner version
        selected_pri false).2
      (install_fonts S selected fs [] repo_name repo_key owner version
        selected_pri false).1 = [] := by
  by_cases hsel : selected = []
  · subst hsel
    rfl
  · rw [install_fonts_empty_manifest S selected fs repo_name repo_key owner version
      selected_pri hsel]
    have hQ : ∀ p ∈ recordsOf S (writeAll (validOf S selected) fs) selected_pri version
        owner repo_name (validOf S selected),
        ∃ g ∈ validOf S selected, g.name = p.1 ∧
          fsGet (writeAll (validOf S selected) fs) p.1 = FileState.content g.content ∧
          p.2 = mkEntry S g.content selected_pri version owner repo_name := by
      refine records_fold_mem S _ _ _ _ _ _ _ _ (by simp) ?_
      intro f hf b hb
      rcases writeAll_get_of_mem (validOf S selected) fs f hf with ⟨g, hg, hname, hget⟩
      have hbg : b = g.content := by
        have := hb.symm.trans hget
        injection this
      exact ⟨g, hg, hname, hget, by rw [hbg]⟩
    have hrec_nodup : (alKeys (recordsOf S (writeAll (validOf S selected) fs)
        selected_pri version owner repo_name (validOf S selected))).Nodup :=
      records_fold_keys_nodup S _ _ _ _ _ _ [] (by simp [alKeys])
    have hinvalid : invalidRepo repo_key = false := hkey
    have hEI : ∀ p ∈ recordsOf S (writeAll (validOf S selected) fs) selected_pri version
        owner repo_name (validOf S selected), entryInvalid p.1 p.2 = false := by
      intro p hp
      rcases hQ p hp with ⟨g, hg, hname, hget, hpe⟩
      rw [hpe]
      cases hte : type_to_ext selected_pri with
      | none => simp [entryInvalid, mkEntry, hte]
      | some ext =>
          have hend := hext g hg ext hte
          rw [← hname]
          simp [entryInvalid, mkEntry, hte, hend]
    have hp1 : phase1_actions [(repo_key, recordsOf S (writeAll (validOf S selected) fs)
        selected_pri version owner repo_name (validOf S selected))] = [] := by
      simp [phase1_actions, alKeys, hinvalid]
    have hp2 : phase2_actions [(repo_key, recordsOf S (writeAll (validOf S selected) fs)
        selected_pri version owner repo_name (validOf S selected))] = [] := by
      simp only [phase2_actions, List.map_cons, List.map_nil, List.flatten_cons,
        List.flatten_nil, List.append_nil]
      rw [if_neg (by simp [hinvalid])]
      rw [List.filterMap_eq_nil_iff]
      intro fe hfe
      simp [hEI fe hfe]
    have hwf2 : ∀ rp ∈ [(repo_key, recordsOf S (writeAll (validOf S selected) fs)
        selected_pri version owner repo_name (validOf S selected))],
        (rp.2.map Prod.fst).Nodup := by
      intro rp hrp
      rcases List.mem_singleton.mp hrp with rfl
      exact hrec_nodup
    have hdups : duplicates [(repo_key, recordsOf S (writeAll (validOf S selected) fs)
        selected_pri version owner repo_name (validOf S selected))] = [] := by
      rw [duplicates, List.filter_eq_nil_iff]
      intro p hp
      have hnd := filename_to_repos_keys_nodup [(repo_key,
        recordsOf S (writeAll (validOf S selected) fs) selected_pri version owner
          repo_name (validOf S selected))]
      have hget : alGet (filename_to_repos [(repo_key,
          recordsOf S (writeAll (validOf S selected) fs) selected_pri version owner
            repo_name (validOf S selected))]) p.1 = some p.2 := by
        refine mem_alGet_of_nodup _ _ _ hnd ?_
        cases p
        exact hp
      rw [alGet_filename_to_repos _ _ hwf2] at hget
      by_cases hc : collectRepos [(repo_key,
          recordsOf S (writeAll (validOf S selected) fs) selected_pri version owner
            repo_name (validOf S selected))] p.1 = []
      · rw [if_pos hc] at hget
        simp at hget
      · rw [if_neg hc] at hget
        have hp2eq : p.2 = collectRepos [(repo_key,
            recordsOf S (writeAll (validOf S selected) fs) selected_pri version owner
              repo_name (validOf S selected))] p.1 := by
          injection hget with hg2
          exact hg2.symm
        have hlen : (collectRepos [(repo_key,
            recordsOf S (writeAll (validOf S selected) fs) selected_pri version owner
              repo_name (validOf S selected))] p.1).length ≤ 1 := by
          cases hq : repoHasSurvivingEntry (repo_key,
            recordsOf S (writeAll (validOf S selected) fs) selected_pri version owner
              repo_name (validOf S selected)) p.1 <;>
            simp [collectRepos, List.filter_cons, hq]
        rw [hp2eq]
        simp only [decide_eq_true_eq]
        omega
    have hdupFalse : ∀ r2 f2, isDuplicateToRemove [(repo_key,
        recordsOf S (writeAll (validOf S selected) fs) selected_pri version owner
          repo_name (validOf S selected))] r2 f2 = false := by
      intro r2 f2
      simp [isDuplicateToRemove, hdups]
    have hp3 : phase3_actions [(repo_key, recordsOf S (writeAll (validOf S selected) fs)
        selected_pri version owner repo_name (validOf S selected))] = [] := by
      simp [phase3_actions, hdups]
    have hint : ∀ t ∈ entry_list [(repo_key,
        recordsOf S (writeAll (validOf S selected) fs) selected_pri version owner
          repo_name (validOf S selected))],
        entryActs S (writeAll (validOf S selected) fs) [(repo_key,
          recordsOf S (writeAll (validOf S selected) fs) selected_pri version owner
            repo_name (validOf S selected))] t.1 t.2.1 t.2.2 = [] ∧
        entryReinstallReason S (writeAll (validOf S selected) fs) [(repo_key,
          recordsOf S (writeAll (validOf S selected) fs) selected_pri version owner
            repo_name (validOf S selected))] t.1 t.2.1 t.2.2 = none := by
      intro t ht
      rw [entry_list] at ht
      simp only [List.map_cons, List.map_nil, List.flatten_cons, List.flatten_nil,
        List.append_nil] at ht
      rcases List.mem_map.mp ht with ⟨fe, hfe, rfl⟩
      obtain ⟨fname, e⟩ := fe
      rcases hQ (fname, e) hfe with ⟨g, hg, hname, hget, hpe⟩
      have hparse : S.parseOk g.content = true := by
        simpa using (List.mem_filter.mp hg).2
      have hfv := hvar g hg
      have hEIfe := hEI (fname, e) hfe
      simp only at hget hpe hEIfe
      constructor
      · simp [entryActs, hinvalid, hEIfe, hdupFalse, hget, hparse, hfv, hpe, mkEntry]
      · simp [entryReinstallReason, hinvalid, hEIfe, hdupFalse, hget, hparse, hfv,
          hpe, mkEntry]
    have hfold := integrity_fold_trivial S (writeAll (validOf S selected) fs) _ _ hint
      ([], [])
    simp [fix_plan, hp1, hp2, hp3, integrity_result, hfold, reinstall_actions,
      sortReinstalls]


/-- C5 counterexample: installing the single valid static TTF file
`Font.TTF` (uppercase extension) succeeds and records it under type
`static-ttf`, but the immediate repair plan is non-empty — the
type/extension-mismatch check compares the recorded type's lowercase
extension against the stored filename with a case-sensitive `endswith`,
so it proposes removing the freshly installed entry. -/
theorem install_fix_plan_roundtrip_counterexample :
    fix_plan sysW
      (install_fonts sysW [{ name := "Font.TTF", content := "c0" }] [] []
        "roboto" "roboto" "o" "1.0" "static-ttf" false).2
      (install_fonts sysW [{ name := "Font.TTF", content := "c0" }] [] []
        "roboto" "roboto" "o" "1.0" "static-ttf" false).1 ≠ [] := by decide

theorem install_fix_plan_roundtrip_witness :
    fix_plan sysW
      (install_fonts sysW [{ name := "a.ttf", content := "c0" }] [] []
        "roboto" "roboto" "o" "1.0" "static-ttf" false).2
      (install_fonts sysW [{ name := "a.ttf", content := "c0" }] [] []
        "roboto" "roboto" "o" "1.0" "static-ttf" false).1 = [] :=
  install_fix_plan_roundtrip sysW [{ name := "a.ttf", content := "c0" }] []
    "roboto" "roboto" "o" "1.0" "static-ttf" (by decide)
    (by decide) (by decide)


/-! ## `fontpm/uninstaller.py` -/

/-- Whether the uninstall loop keeps a record: missing file, unreadable
(unhashable) file, or hash mismatch without `force`. -/
def uninstallKeeps (S : Sys) (force : Bool) (fs : FS) (p : String × FontEntry) : Bool :=
  match fsGet fs p.1 with
  | FileState.missing => true
  | FileState.unreadable => true
  | FileState.content b => ¬ (S.sha256 b = p.2.hash ∨ force)

/-- The per-repo loop of `uninstall_fonts`: walk the records in order,
keep a record when its file is missing or cannot be hashed, delete the
file and drop the record when the hash matches or `force` is set, and
keep the record (with a warning) on a mismatch without `force`.  Returns
the filesystem, the `remaining` records and the deleted count. -/
def uninstall_process_fonts (S : Sys) (force : Bool) :
    List (String × FontEntry) → FS → FS × RepoFonts × Nat
  | [], fs => (fs, [], 0)
  | p :: rest, fs =>
    match fsGet fs p.1 with
    | FileState.content b =>
        if S.sha256 b = p.2.hash ∨ force then
          let r := uninstall_process_fonts S force rest (fsUnlink fs p.1)
          (r.1, r.2.1, r.2.2 + 1)
        else
          let r := uninstall_process_fonts S force rest fs
          (r.1, p :: r.2.1, r.2.2)
    | _ =>
        let r := uninstall_process_fonts S force rest fs
        (r.1, p :: r.2.1, r.2.2)

/-- `uninstall_fonts`: resolve each requested repo to a lowercased key
(with the `owner/name` form checked against the first record's owner),
process its records, and keep the surviving subset under the key — or drop
the key when nothing remains. -/
def uninstall_fonts (S : Sys) (repo : List String) (force : Bool)
    (manifest : Manifest) (fs : FS) : Manifest × FS :=
  if manifest = [] then (manifest, fs)
  else
    repo.foldl (fun st repo_arg =>
      if containsChar repo_arg '/' then
        match splitOnChar '/' repo_arg with
        | [owner, name] =>
            let repo_key := lowerString name
            match alGet st.1 repo_key with
            | none => st
            | some fonts =>
                if fonts = [] ∨
                   fonts.head?.map (fun p => lowerString p.2.owner) ≠
                     some (lowerString owner)
                then st
                else
                  let r := uninstall_process_fonts S force fonts st.2
                  (if r.2.1 ≠ [] then alSet st.1 repo_key r.2.1
                   else alErase st.1 repo_key, r.1)
        | _ => st
      else
        let repo_key := lowerString repo_arg
        match alGet st.1 repo_key with
        | none => st
        | some fonts =>
            let r := uninstall_process_fonts S force fonts st.2
            (if r.2.1 ≠ [] then alSet st.1 repo_key r.2.1
             else alErase st.1 repo_key, r.1)) (manifest, fs)

theorem fsGet_fsUnlink (fs : FS) (k n : String) :
    fsGet (fsUnlink fs k) n = if k = n then FileState.missing else fsGet fs n := by
  simp only [fsGet, fsUnlink, alGet_alErase]
  by_cases h : k = n <;> simp [h]

theorem uninstall_process_cons_keep (S : Sys) (force : Bool) (p : String × FontEntry)
    (rest : RepoFonts) (fs : FS) (h : uninstallKeeps S force fs p = true) :
    uninstall_process_fonts S force (p :: rest) fs =
      ((uninstall_process_fonts S force rest fs).1,
       p :: (uninstall_process_fonts S force rest fs).2.1,
       (uninstall_process_fonts S force rest fs).2.2) := by
  cases hfs : fsGet fs p.1 with
  | missing => simp [uninstall_process_fonts, hfs]
  | unreadable => simp [uninstall_process_fonts, hfs]
  | content b =>
      have hdel : ¬ (S.sha256 b = p.2.hash ∨ force = true) := by
        simp [uninstallKeeps, hfs] at h
        obtain ⟨h1, h2⟩ := h
        subst h2
        simp [h1]
      simp [uninstall_process_fonts, hfs, hdel]

theorem uninstall_process_cons_del (S : Sys) (force : Bool) (p : String × FontEntry)
    (rest : RepoFonts) (fs : FS) (h : uninstallKeeps S force fs p = false) :
    uninstall_process_fonts S force (p :: rest) fs =
      ((uninstall_process_fonts S force rest (fsUnlink fs p.1)).1,
       (uninstall_process_fonts S force rest (fsUnlink fs p.1)).2.1,
       (uninstall_process_fonts S force rest (fsUnlink fs p.1)).2.2 + 1) := by
  cases hfs : fsGet fs p.1 with
  | missing => simp [uninstallKeeps, hfs] at h
  | unreadable => simp [uninstallKeeps, hfs] at h
  | content b =>
      have hdel : S.sha256 b = p.2.hash ∨ force = true := by
        simp [uninstallKeeps, hfs] at h
        by_cases hsha : S.sha256 b = p.2.hash
        · exact Or.inl hsha
        · exact Or.inr (h hsha)
      simp [uninstall_process_fonts, hfs, hdel]

theorem uninstall_process_spec (S : Sys) (force : Bool) (fonts : RepoFonts) (fs : FS)
    (hnd : (fonts.map Prod.fst).Nodup) :
    (uninstall_process_fonts S force fonts fs).2.1 =
      fonts.filter (uninstallKeeps S force fs) ∧
    ∀ n, fsGet (uninstall_process_fonts S force fonts fs).1 n =
      if n ∈ (fonts.filter (fun p => ¬ uninstallKeeps S force fs p)).map Prod.fst
      then FileState.missing else fsGet fs n := by
  induction fonts generalizing fs with
  | nil => simp [uninstall_process_fonts]
  | cons p rest ih =>
    have hsplit := List.nodup_cons.mp hnd
    have hne : ∀ q ∈ rest, ¬ p.1 = q.1 := by
      intro q hq he
      exact hsplit.1 (he ▸ List.mem_map.mpr ⟨q, hq, rfl⟩)
    cases hkeep : uninstallKeeps S force fs p with
    | true =>
        rw [uninstall_process_cons_keep S force p rest fs hkeep]
        rcases ih fs hsplit.2 with ⟨hrem, hfsp⟩
        refine ⟨?_, ?_⟩
        · simp only []
          rw [hrem, List.filter_cons_of_pos (by simp [hkeep])]
        · intro n
          simp only []
          rw [hfsp n, List.filter_cons_of_neg (by simp [hkeep])]
    | false =>
        rw [uninstall_process_cons_del S force p rest fs hkeep]
        have hcong : ∀ q ∈ rest,
            uninstallKeeps S force (fsUnlink fs p.1) q = uninstallKeeps S force fs q := by
          intro q hq
          simp [uninstallKeeps, fsGet_fsUnlink, hne q hq]
        rcases ih (fsUnlink fs p.1) hsplit.2 with ⟨hrem, hfsp⟩
        have hcong2 : rest.filter (fun q => ¬ uninstallKeeps S force (fsUnlink fs p.1) q) =
            rest.filter (fun q => ¬ uninstallKeeps S force fs q) := by
          refine List.filter_congr ?_
          intro q hq
          simp [hcong q hq]
        refine ⟨?_, ?_⟩
        · simp only []
          rw [hrem, List.filter_congr hcong, List.filter_cons_of_neg (by simp [hkeep])]
        · intro n
          simp only []
          rw [hfsp n, hcong2, List.filter_cons_of_pos (by simp [hkeep])]
          by_cases hn : p.1 = n
          · subst hn
            have hmm : p.1 ∈ (p :: rest.filter
                (fun q => ¬ uninstallKeeps S force fs q)).map Prod.fst := by simp
            simp [hmm, fsGet_fsUnlink]
          · have hn2 : ¬ n = p.1 := fun he => hn he.symm
            rw [fsGet_fsUnlink, if_neg hn]
            have hiff : (n ∈ (rest.filter
                (fun q => ¬ uninstallKeeps S force fs q)).map Prod.fst) ↔
                (n ∈ p.1 :: (rest.filter
                  (fun q => ¬ uninstallKeeps S force fs q)).map Prod.fst) := by
              constructor
              · exact List.mem_cons_of_mem p.1
              · intro h2
                rcases List.mem_cons.mp h2 with h2 | h2
                · exact absurd h2 hn2
                · exact h2
            exact if_congr hiff rfl rfl


/-- C8: for a requested repo key, `uninstall_fonts` keeps a record when
its file is missing on disk or cannot be hashed, deletes the file and
drops the record exactly when the current hash equals the recorded hash or
`force` is set, keeps the record (with a warning) on a mismatch without
`force`, and removes the repo key from the manifest if and only if no
records remain; files of other entries and other manifest keys are
untouched. -/
theorem uninstall_fonts_spec (S : Sys) (arg : String) (force : Bool)
    (m : Manifest) (fs : FS) (fonts : RepoFonts)
    (hns : containsChar arg '/' = false)
    (hget : alGet m (lowerString arg) = some fonts)
    (hnd : (fonts.map Prod.fst).Nodup) :
    (alGet (uninstall_fonts S [arg] force m fs).1 (lowerString arg) =
      (if fonts.filter (uninstallKeeps S force fs) = [] then none
       else some (fonts.filter (uninstallKeeps S force fs)))) ∧
    (∀ k, ¬ k = lowerString arg →
      alGet (uninstall_fonts S [arg] force m fs).1 k = alGet m k) ∧
    (∀ n, fsGet (uninstall_fonts S [arg] force m fs).2 n =
      if n ∈ (fonts.filter (fun p => ¬ uninstallKeeps S force fs p)).map Prod.fst
      then FileState.missing else fsGet fs n) := by
  have hm : m ≠ [] := by
    intro h0
    rw [h0] at hget
    simp [alGet] at hget
  have hstep : uninstall_fonts S [arg] force m fs =
      ((if (uninstall_process_fonts S force fonts fs).2.1 ≠ []
        then alSet m (lowerString arg) (uninstall_process_fonts S force fonts fs).2.1
        else alErase m (lowerString arg)),
       (uninstall_process_fonts S force fonts fs).1) := by
    rw [uninstall_fonts, if_neg hm]
    simp [List.foldl_cons, List.foldl_nil, hns, hget]
  rcases uninstall_process_spec S force fonts fs hnd with ⟨hrem, hfsp⟩
  refine ⟨?_, ?_, ?_⟩
  · rw [hstep]
    by_cases hc : fonts.filter (uninstallKeeps S force fs) = []
    · rw [if_neg (by simp [hrem, hc]), if_pos hc]
      simp [alGet_alErase]
    · rw [if_pos (by simp [hrem, hc]), if_neg hc]
      simp [alGet_alSet, hrem]
  · intro k hk
    have hk2 : ¬ lowerString arg = k := fun he => hk he.symm
    rw [hstep]
    by_cases hc : (uninstall_process_fonts S force fonts fs).2.1 = []
    · rw [if_neg (by simp [hc])]
      simp [alGet_alErase, hk2]
    · rw [if_pos hc]
      simp [alGet_alSet, hk2]
  · intro n
    rw [hstep]
    exact hfsp n

/-- Witness data for the uninstall theorem: one matching-hash record and
one drifted record. -/
def fontsUW : RepoFonts :=
  [("a.ttf",
    { hash := "c0", type := "static-ttf", version := "1", owner := "o",
      repo_name := "myfont" }),
   ("b.ttf",
    { hash := "zz", type := "static-ttf", version := "1", owner := "o",
      repo_name := "myfont" })]

def fsUW : FS :=
  [("a.ttf", FileState.content "c0"), ("b.ttf", FileState.content "other")]

def mUW : Manifest := [("myfont", fontsUW)]

theorem uninstall_fonts_spec_witness :
    alGet (uninstall_fonts sysW ["MyFont"] false mUW fsUW).1 (lowerString "MyFont") =
      (if fontsUW.filter (uninstallKeeps sysW false fsUW) = [] then none
       else some (fontsUW.filter (uninstallKeeps sysW false fsUW))) :=
  (uninstall_fonts_spec sysW "MyFont" false mUW fsUW fontsUW
    (by decide) (by decide) (by decide)).1


/-! ## `fonti/updater.py`

The network collaborators (`fetch_release_info`, `get_fonts_dir_version`)
and the `packaging.version.Version` parser are oracles; `none` models a
raised exception / parse failure.  A successful parse yields a value in a
total order (modelled as `Nat`).  `install_single_repo` performed during
an update is recorded as an event; the uncaught `KeyError` raised by
`font_info["filename"]` on a record without that key is modelled as
`Except.error "filename"`. -/

structure UpdateEnv where
  fetchLatest : String → String → Option (String × String × String × String)
  fontsDirVersion : String → String → Option String
  parseVersion : String → Option Nat

inductive UpdateEvent
  | reinstall (owner repo_name repo_key : String)
deriving DecidableEq, Repr

/-- `clean_version`: strip leading `v` characters (`str.lstrip("v")`). -/
def clean_version (v : String) : String := lstripChar 'v' v

/-- The version comparison of `update_fonts`: semantic comparison when
both sides parse, byte-wise string comparison otherwise. -/
def versionIsNewer (U : UpdateEnv) (latest installed : String) : Bool :=
  match U.parseVersion (clean_version latest), U.parseVersion (clean_version installed) with
  | some vl, some vi => vl > vi
  | _, _ => strGt (clean_version latest) (clean_version installed)

/-- One pending update, the tuple pushed onto `repos_to_update`. -/
structure UpdateItem where
  repo_key : String
  installed_version : String
  latest_version : String
  owner : String
  repo_name_actual : String
  fonts : List FontEntry
  body : String
deriving DecidableEq, Repr

/-- The check phase of `update_fonts`: resolve the candidate repo keys,
fetch each one's latest version (with the fonts-directory fallback except
for `thegooglefontsrepo`), and collect the repos whose latest compares
newer. -/
def update_check (U : UpdateEnv) (repo : List String) (manifest : Manifest) :
    List UpdateItem :=
  let repos_to_check : List String :=
    if repo = [] then alKeys manifest
    else repo.foldl (fun acc r =>
      if containsChar r '/' then
        match splitOnChar '/' r with
        | [owner_input, name_input] =>
            match manifest.find? (fun kv =>
              match kv.2.head? with
              | some fe => fe.2.owner = owner_input ∧ fe.2.repo_name = name_input
              | none => false) with
            | some kv => acc ++ [kv.1]
            | none => acc
        | _ => acc
      else
        let name_input := lowerString r
        if alHas manifest name_input then acc ++ [name_input] else acc) []
  repos_to_check.foldl (fun acc repo_key =>
    match alGet manifest repo_key with
    | none => acc
    | some fonts =>
        match fonts.head? with
        | none => acc
        | some fe0 =>
            let installed_version := fe0.2.version
            let owner := fe0.2.owner
            let repo_name_actual := fe0.2.repo_name
            match U.fetchLatest owner repo_name_actual with
            | some (latest_version, body, final_owner, final_repo_name) =>
                if versionIsNewer U latest_version installed_version then
                  acc ++
                    [{ repo_key := repo_key
                       installed_version := installed_version
                       latest_version := latest_version
                       owner := final_owner
                       repo_name_actual := final_repo_name
                       fonts := fonts.map Prod.snd
                       body := body }]
                else acc
            | none =>
                if owner = "thegooglefontsrepo" then acc
                else
                  match U.fontsDirVersion owner repo_name_actual with
                  | some latest_version =>
                      if versionIsNewer U latest_version installed_version then
                        acc ++
                          [{ repo_key := repo_key
                             installed_version := installed_version
                             latest_version := latest_version
                             owner := owner
                             repo_name_actual := repo_name_actual
                             fonts := fonts.map Prod.snd
                             body := "" }]
                      else acc
                  | none => acc) []

/-- `update_fonts`: run the check phase, then for each pending update
delete the old files by each record's `filename` field (an uncaught
`KeyError` when the field is absent), clear the manifest entry, and
reinstall at `"latest"` forced. -/
def update_fonts (U : UpdateEnv) (repo : List String) (manifest : Manifest)
    (fs : FS) : Except String (Manifest × FS × List UpdateEvent) :=
  if manifest = [] then Except.ok (manifest, fs, [])
  else
    (update_check U repo manifest).foldl (fun st item =>
      match st with
      | Except.error e => Except.error e
      | Except.ok (m, fsAcc, evs) =>
          match item.fonts.foldl (fun facc font_info =>
            match facc with
            | Except.error e => Except.error e
            | Except.ok f2 =>
                match font_info.filename with
                | none => Except.error "filename"
                | some filename =>
                    if fsGet f2 filename ≠ FileState.missing
                    then Except.ok (fsUnlink f2 filename)
                    else Except.ok f2) (Except.ok fsAcc) with
          | Except.error e => Except.error e
          | Except.ok fs2 =>
              Except.ok (alErase m item.repo_key, fs2,
                evs ++ [UpdateEvent.reinstall item.owner item.repo_name_actual
                  item.repo_key])) (Except.ok (manifest, fs, []))

/-- The oracle of the C9 failing input: upstream reports `2.0.0`, which
parses newer than the installed `1.0.0`. -/
def updEnvW : UpdateEnv :=
  { fetchLatest := fun _ _ => some ("2.0.0", "", "o", "roboto"),
    fontsDirVersion := fun _ _ => none,
    parseVersion := fun s =>
      if s = "2.0.0" then some 2 else if s = "1.0.0" then some 1 else none }

/-- The C9 failing input: the manifest exactly as `fonti/installer.py`
writes it — records carry no `filename` field. -/
def mUpdW : Manifest :=
  [("roboto", [("a.ttf",
    { hash := "h", type := "static-ttf", version := "1.0.0", owner := "o",
      repo_name := "roboto" })])]

/-- C9 (code bug): on a manifest written by this program's own installer,
a repo whose freshly fetched latest version compares newer makes
`update_fonts` raise `KeyError: 'filename'` (the records have no
`filename` key) instead of deleting the old files, clearing the entry and
reinstalling: the update loop reads `font_info["filename"]`, a field
`fonti`'s `FontEntry` does not declare and `install_fonts` never writes. -/
theorem update_fonts_keyerror :
    update_fonts updEnvW [] mUpdW [("a.ttf", FileState.content "h")] =
      Except.error "filename" := by rfl

end Fonti
